import Mathlib

/-!
# Readiness-driven connection multiplexer: reactor, server lifecycle, bubble sort

A shallow embedding of `network/epoll/epoll.go`, `network/epoll/server.go`,
`io/ascii.go` and the function exercised by `sorts/bubble_test.go`.

Conventions of the embedding.

* A Go `error` is the list of atomic failures it wraps; `nil` is the empty list.
* A `*epollNetItem` is an address into `epoll.heap`; Go pointers obtained from the
  registry are never nil, so dereferencing is total.
* The kernel side of the readiness facility is the interest list `epoll.kernel`.
  `EPOLL_CTL_ADD` of a descriptor already on the list fails with `EEXIST`,
  `EPOLL_CTL_DEL` of a descriptor not on the list fails with `ENOENT`; other
  failures of `EPOLL_CTL_ADD` (`ENOMEM`, `ENOSPC`, `EBADF`, ...) are an input `fault`.
* `epoll.closed` records every `Close` call made on a connection, newest first: a
  connection is closed when it occurs there, and closed twice when it occurs twice.
* The outcome of the `epoll_wait` syscall (the reported events, or its failure) is an
  input of `Wait`.
* Descriptors fit in 32 bits: the `int32` descriptor of an event converts back to the
  `int` key of the registry unchanged.
* A mutex-guarded section is executed as one atomic piece of a sequential function; the
  pieces of `AddOrClose` before and inside its locked section are functions of their
  own, so that another call can be run between them.
-/

namespace Go

/-- A Go slice: `none` is the nil slice. -/
abbrev Slice (α : Type) := Option (List α)

/-- Builtin `len`. -/
def len {α : Type} (b : Slice α) : Nat :=
  match b with
  | none => 0
  | some l => l.length

end Go

namespace Epoll

open Go

/-! ## Errors -/

/-- An atomic failure: a syscall errno, the error of closing a closed connection, or
one of the package-level sentinel errors. -/
inductive Failure where
  | errno (code : Nat)
  | netClosed
  | epollEmptyEvents
  | servAlreadyRunning
  | servAlreadyStopped
  deriving DecidableEq, Repr

/-- A Go `error`: the failures it wraps, `nil` being `[]`. -/
abbrev Error := List Failure

/-- Modelled from the spec: `errors.Wrap` of `go.osspkg.com/x/errors` (not among the
sources) combines the failures given to it, skipping nil ones; the result is nil
exactly when all of them are nil. -/
def errors.Wrap (a b : Error) : Error := a ++ b

/-- Modelled from the spec: sentinel `errEpollEmptyEvents`, the distinguished
"no events" condition; its declaration is not among the sources. -/
def errEpollEmptyEvents : Error := [Failure.epollEmptyEvents]

/-- Modelled from the spec: sentinel `errServAlreadyRunning`, the "already running"
condition; its declaration is not among the sources. -/
def errServAlreadyRunning : Error := [Failure.servAlreadyRunning]

/-- Modelled from the spec: sentinel `errServAlreadyStopped`, the "already stopped"
condition; its declaration is not among the sources. -/
def errServAlreadyStopped : Error := [Failure.servAlreadyStopped]

def EEXIST : Nat := 17

def ENOENT : Nat := 2

/-! ## Connections and the kernel facility -/

/-- A `net.Conn`: an identity and the OS descriptor it wraps. -/
structure NetConn where
  id : Nat
  fd : Int
  deriving DecidableEq, Repr

/-- The descriptor of a connection (`fd.ByConnect`). -/
def fd.ByConnect (c : NetConn) : Int := c.fd

/-- The `Close` method of `net.Conn`: the call is recorded; closing a connection that
is already closed returns an error. The interest list is changed by `EpollCtl` only:
that the kernel also drops the descriptor of a closed connection from it is not part of
the model. -/
def NetConn.Close (closed : List NetConn) (c : NetConn) : List NetConn × Error :=
  if c ∈ closed then (c :: closed, [Failure.netClosed]) else (c :: closed, [])

def POLLIN : Nat := 0x1

def POLLERR : Nat := 0x8

def POLLHUP : Nat := 0x10

def POLLNVAL : Nat := 0x20

def POLLRDHUP : Nat := 0x2000

def epollEvents : Nat := POLLIN ||| POLLRDHUP ||| POLLERR ||| POLLHUP ||| POLLNVAL

def epollEventCount : Nat := 100

def epollEventIntervalMS : Nat := 500

/-- The operations of `epoll_ctl` used by the reactor. -/
inductive CtlOp where
  | EPOLL_CTL_ADD
  | EPOLL_CTL_DEL
  deriving DecidableEq, Repr

/-- The syscall `unix.EpollCtl` on the interest list of the reactor's epoll instance.
Open descriptors are not tracked: `EPOLL_CTL_DEL` of a descriptor off the list reports
`ENOENT` also where the kernel, the descriptor being closed, reports `EBADF`. -/
def EpollCtl (interest : List Int) (op : CtlOp) (fd : Int) (fault : Option Nat) :
    List Int × Error :=
  match op with
  | CtlOp.EPOLL_CTL_ADD =>
    if fd ∈ interest then (interest, [Failure.errno EEXIST])
    else
      match fault with
      | some e => (interest, [Failure.errno e])
      | none => (fd :: interest, [])
  | CtlOp.EPOLL_CTL_DEL =>
    if fd ∈ interest then (interest.filter (fun x => x ≠ fd), [])
    else (interest, [Failure.errno ENOENT])

/-- A `unix.EpollEvent`: the event mask and the descriptor it is reported for. -/
structure EpollEvent where
  Events : Nat
  Fd : Int
  deriving DecidableEq, Repr

/-! ## Registry -/

/-- Modelled from the spec: `epollNetItem` (ConnectionItem), whose declaration is not
among the sources: the connection, its descriptor and the awaiting flag. -/
structure epollNetItem where
  Conn : NetConn
  Fd : Int
  await : Bool
  deriving DecidableEq, Repr

/-- Modelled from the spec: `epollNetMap`, the mapping descriptor to item (here: to the
address of the item) with unique keys; its declaration is not among the sources. -/
abbrev epollNetMap := List (Int × Nat)

/-- Map lookup `m[fd]`. -/
def epollNetMap.get (m : epollNetMap) (fd : Int) : Option Nat :=
  match m with
  | [] => none
  | (k, p) :: rest => if k = fd then some p else epollNetMap.get rest fd

/-- Builtin `delete(m, fd)`. -/
def epollNetMap.delete (m : epollNetMap) (fd : Int) : epollNetMap :=
  m.filter (fun e => e.1 ≠ fd)

/-- Map assignment `m[fd] = p`. -/
def epollNetMap.set (m : epollNetMap) (fd : Int) (p : Nat) : epollNetMap :=
  (fd, p) :: epollNetMap.delete m fd

/-- The keys of the registry. -/
def epollNetMap.keys (m : epollNetMap) : List Int := m.map Prod.fst

/-- Entries written to the logger by the reactor. -/
inductive LogEntry where
  | closeFd (err : Error) (fd : Int)
  | epollCloseConnect (err : Error)
  deriving DecidableEq, Repr

/-- The reactor `epoll` together with the part of the world it acts on: the kernel
interest list, the heap of items and the record of closed connections. -/
structure epoll where
  kernel : List Int
  conn : epollNetMap
  nets : List Nat
  heap : Nat → epollNetItem
  next : Nat
  closed : List NetConn
  log : List LogEntry

/-- The reactor built by `newEpoll` when `EpollCreate1` succeeds: empty interest list,
empty registry. -/
def newEpoll : epoll :=
  { kernel := []
    conn := []
    nets := []
    heap := fun _ => { Conn := { id := 0, fd := 0 }, Fd := 0, await := false }
    next := 0
    closed := []
    log := [] }

/-- Modelled from the spec: method `IsAwait` of an item (declared with `epollNetItem`,
not among the sources) reads the awaiting flag. -/
def IsAwait (v : epoll) (c : Nat) : Bool := (v.heap c).await

/-- Modelled from the spec: method `Await(b)` of an item (declared with `epollNetItem`,
not among the sources) sets the awaiting flag to `b`. -/
def Await (v : epoll) (c : Nat) (b : Bool) : epoll :=
  { v with heap := fun q => if q = c then { v.heap c with await := b } else v.heap q }

/-! ## Reactor operations -/

/-- The first statement pair of `AddOrClose`: the `EPOLL_CTL_ADD` syscall. -/
def AddOrClose.ctl (v : epoll) (c : NetConn) (fault : Option Nat) : epoll × Error :=
  let r := EpollCtl v.kernel CtlOp.EPOLL_CTL_ADD (fd.ByConnect c) fault
  ({ v with kernel := r.1 }, r.2)

/-- The failure branch of `AddOrClose`: `errors.Wrap(err, c.Close())`. -/
def AddOrClose.fail (v : epoll) (c : NetConn) (err : Error) : epoll × Error :=
  let r := NetConn.Close v.closed c
  ({ v with closed := r.1 }, errors.Wrap err r.2)

/-- The locked section of `AddOrClose`: `v.conn[fdc] = &epollNetItem{Conn: c, Fd: fdc}`. -/
def AddOrClose.store (v : epoll) (c : NetConn) : epoll :=
  let fdc := fd.ByConnect c
  { v with
    conn := epollNetMap.set v.conn fdc v.next
    heap := fun q => if q = v.next then { Conn := c, Fd := fdc, await := false } else v.heap q
    next := v.next + 1 }

def AddOrClose (v : epoll) (c : NetConn) (fault : Option Nat) : epoll × Error :=
  let r := AddOrClose.ctl v c fault
  if r.2 ≠ [] then AddOrClose.fail r.1 c r.2
  else (AddOrClose.store r.1 c, [])

def removeFD (v : epoll) (fd : Int) : epoll × Error :=
  let r := EpollCtl v.kernel CtlOp.EPOLL_CTL_DEL fd none
  ({ v with kernel := r.1 }, r.2)

def closeConn (v : epoll) (c : Nat) : epoll × Error :=
  let r := removeFD v (v.heap c).Fd
  if r.2 ≠ [] then (r.1, r.2)
  else
    let v1 := { r.1 with conn := epollNetMap.delete r.1.conn (v.heap c).Fd }
    let k := NetConn.Close v1.closed (v.heap c).Conn
    ({ v1 with closed := k.1 }, k.2)

def Close (v : epoll) (c : Nat) : epoll × Error := closeConn v c

/-- The body of the loop of `CloseAll` for the entry `e` of the registry as it was
when the loop started. An entry deleted from the map before the loop reaches it is
not produced by `range`. -/
def CloseAll.body (s : epoll × Error) (e : Int × Nat) : epoll × Error :=
  if epollNetMap.get s.1.conn e.1 = some e.2 then
    let r := closeConn s.1 e.2
    if r.2 ≠ [] then (r.1, errors.Wrap s.2 r.2) else (r.1, s.2)
  else s

def CloseAll (v : epoll) : epoll × Error :=
  let r := v.conn.foldl CloseAll.body (v, [])
  ({ r.1 with conn := [] }, r.2)

def getConn (v : epoll) (fd : Int) : Option Nat := epollNetMap.get v.conn fd

/-- The body of the loop of `Wait` for one reported event. -/
def Wait.body (v : epoll) (ev : EpollEvent) : epoll :=
  let fdc := ev.Fd
  match getConn v fdc with
  | none =>
    let r := removeFD v fdc
    if r.2 ≠ [] then { r.1 with log := r.1.log ++ [LogEntry.closeFd r.2 fdc] } else r.1
  | some conn =>
    if IsAwait v conn then v
    else
      let v1 := Await v conn true
      if ev.Events = POLLIN then { v1 with nets := v1.nets ++ [conn] }
      else
        let r := Close v1 conn
        if r.2 ≠ [] then { r.1 with log := r.1.log ++ [LogEntry.epollCloseConnect r.2] }
        else r.1

/-- `Wait`, given the outcome of `unix.EpollWait`: its error, or the `n` events it
wrote to the event buffer. Returns the reactor, the ready list and the error. -/
def Wait (v : epoll) (res : Except Failure (List EpollEvent)) : epoll × List Nat × Error :=
  match res with
  | Except.error err => (v, [], [err])
  | Except.ok events =>
    if events.length ≤ 0 then (v, [], errEpollEmptyEvents)
    else
      let v1 := events.foldl Wait.body { v with nets := [] }
      (v1, v1.nets, [])

/-- The loop invariant of `Wait` relating the reactor `s` reached in the loop to the
reactor `v` in which the loop started: flags that were set stay set, and the ready list
has no repetition and holds items whose flag was clear in `v` and is set in `s`. -/
def WaitInv (v s : epoll) : Prop :=
  (∀ q, IsAwait v q = true → IsAwait s q = true) ∧
  (∀ p ∈ s.nets, IsAwait v p = false ∧ IsAwait s p = true) ∧
  s.nets.Nodup

/-- The part of the state an event for another descriptor leaves alone: the entry of
`fd` and the clear flag of its item `p`. -/
def Untouched (s : epoll) (fd : Int) (p : Nat) : Prop :=
  (∀ e ∈ s.conn, (s.heap e.2).Fd = e.1) ∧ getConn s fd = some p ∧ IsAwait s p = false

/-- The reactor in the loop of `Wait` when the events `pre` have been processed. -/
def Wait.reached (v : epoll) (pre : List EpollEvent) : epoll :=
  pre.foldl Wait.body { v with nets := [] }

/-- The reading of `closeAll` in the specification, to be compared with `CloseAll`:
`closeConn` is applied to every entry of the list in turn, whatever the outcome of the
previous ones. Returns the reactor and the outcome of each individual close. -/
def closeEach (v : epoll) (entries : List (Int × Nat)) : epoll × List Error :=
  match entries with
  | [] => (v, [])
  | e :: rest =>
    let r := closeConn v e.2
    let t := closeEach r.1 rest
    (t.1, r.2 :: t.2)

/-! ## Sequences of reactor operations -/

/-- A call of one of the four operations of the reactor, with the inputs the world
supplies to it. -/
inductive Op where
  | addOrClose (c : NetConn) (fault : Option Nat)
  | close (c : Nat)
  | closeAll
  | wait (res : Except Failure (List EpollEvent))

/-- The reactor after the whole call has run. -/
def Op.run (v : epoll) (o : Op) : epoll :=
  match o with
  | Op.addOrClose c fault => (AddOrClose v c fault).1
  | Op.close c => (Close v c).1
  | Op.closeAll => (CloseAll v).1
  | Op.wait res => (Wait v res).1

/-- What the callers guarantee: `AddOrClose` receives a newly accepted connection (it is
open and its descriptor is not the descriptor of a registered connection), `Close`
receives an item that was allocated by `AddOrClose`. -/
def Op.admissible (v : epoll) (o : Op) : Prop :=
  match o with
  | Op.addOrClose c _ => c ∉ v.closed ∧ fd.ByConnect c ∉ epollNetMap.keys v.conn
  | Op.close c => c < v.next
  | Op.closeAll => True
  | Op.wait _ => True

instance (v : epoll) (o : Op) : Decidable (Op.admissible v o) := by
  cases o <;> unfold Op.admissible <;> infer_instance

/-- The reactor after the calls `ops`, each run to completion before the next starts. -/
def runAll (v : epoll) (ops : List Op) : epoll := ops.foldl Op.run v

/-- Every call of `ops` is admissible in the state in which it starts. -/
def admissibleAll (v : epoll) (ops : List Op) : Prop :=
  match ops with
  | [] => True
  | o :: rest => Op.admissible v o ∧ admissibleAll (Op.run v o) rest

instance admissibleAll.decidable (v : epoll) (ops : List Op) :
    Decidable (admissibleAll v ops) := by
  induction ops generalizing v with
  | nil => exact isTrue trivial
  | cons o rest ih =>
    unfold admissibleAll
    exact @instDecidableAnd _ _ _ (ih _)

/-- The lock-step property: the descriptors on the kernel interest list are the keys of
the registry, and no registry entry holds a connection that has been closed. -/
def lockStep (v : epoll) : Prop :=
  (∀ fd : Int, fd ∈ v.kernel ↔ fd ∈ epollNetMap.keys v.conn) ∧
  (∀ e ∈ v.conn, (v.heap e.2).Conn ∉ v.closed)

/-- Well-formedness of the registry and the heap, kept by every operation: keys are
unique, an entry is filed under the descriptor of its item, items are allocated, and
the descriptor of an allocated item is the descriptor of its connection. -/
def WF (v : epoll) : Prop :=
  (epollNetMap.keys v.conn).Nodup ∧
  (∀ e ∈ v.conn, (v.heap e.2).Fd = e.1 ∧ e.2 < v.next) ∧
  (∀ p, p < v.next → fd.ByConnect (v.heap p).Conn = (v.heap p).Fd)

/-! ## Server -/

/-- The marker of `io/ascii.go`. -/
def asciiEOF : Slice Nat := some [255, 244, 255, 253, 6]

/-- Modelled from the spec: the package-level `defaultEOF` of the server, whose
declaration is not among the sources: the 5-byte sequence `{255,244,255,253,6}`. -/
def defaultEOF : Slice Nat := some [255, 244, 255, 253, 6]

structure Config where
  Addr : String
  ReadTimeout : Nat
  WriteTimeout : Nat
  IdleTimeout : Nat
  ShutdownTimeout : Nat
  deriving DecidableEq, Repr

/-- Modelled from the spec: `syncing.Switch.On` (not among the sources) flips the
switch on and reports whether this call flipped it. Returns the switch and the report. -/
def Switch.On (b : Bool) : Bool × Bool := (true, !b)

/-- Modelled from the spec: `syncing.Switch.Off` (not among the sources) flips the
switch off and reports whether this call flipped it. Returns the switch and the report. -/
def Switch.Off (b : Bool) : Bool × Bool := (false, b)

/-- The `Close` method of `net.Listener`: the call is recorded; closing a listener that
is already closed returns an error. -/
def Listener.Close (closed : List Nat) (l : Nat) : List Nat × Error :=
  if l ∈ closed then (l :: closed, [Failure.netClosed]) else (l :: closed, [])

/-- Entries written to the logger by the server. -/
inductive ServerLog where
  | started (addr : String)
  | stopped (addr : String)
  | stoppedErr (err : Error) (addr : String)
  deriving DecidableEq, Repr

/-- The `Server` together with the part of the world it acts on: `status` is the
run-state switch, `wg` the number of background loops started and not yet waited for,
`listener` and `epoll` are nil when `none`; `listens` and `creates` count the calls of
`net.Listen` and `newEpoll`, `shut` records the listeners closed. -/
structure Server where
  status : Bool
  wg : Nat
  conf : Config
  eof : Slice Nat
  listener : Option Nat
  epoll : Option epoll
  listens : Nat
  creates : Nat
  shut : List Nat
  log : List ServerLog

/-- A configuration with the zero value of every field. -/
def zeroConfig : Config :=
  { Addr := ""
    ReadTimeout := 0
    WriteTimeout := 0
    IdleTimeout := 0
    ShutdownTimeout := 0 }

def New (conf : Config) (eof : Slice Nat) : Server :=
  { status := false
    wg := 0
    conf := conf
    eof := eof
    listener := none
    epoll := none
    listens := 0
    creates := 0
    shut := []
    log := [] }

/-- Method `validate`; `check` is `address.Check`. -/
def Server.validate (check : String → String) (s : Server) : Server :=
  let s1 := { s with conf := { s.conf with Addr := check s.conf.Addr } }
  if len s1.eof = 0 then { s1 with eof := defaultEOF } else s1

/-- Method `Up`, given the outcome of `net.Listen` (`listen`: its error or the
listener) and of `EpollCreate1` inside `newEpoll` (`create`: its error, if any). -/
def Server.Up (check : String → String) (s : Server) (listen : Except Failure Nat)
    (create : Option Failure) : Server × Error :=
  let sw := Switch.On s.status
  let s0 := { s with status := sw.1 }
  if !sw.2 then (s0, errServAlreadyRunning)
  else
    let s1 := Server.validate check s0
    match listen with
    | Except.error e => ({ s1 with listener := none, listens := s1.listens + 1 }, [e])
    | Except.ok l =>
      let s2 := { s1 with listener := some l, listens := s1.listens + 1 }
      match create with
      | some e => ({ s2 with epoll := none, creates := s2.creates + 1 }, [e])
      | none =>
        ({ s2 with
            epoll := some newEpoll
            creates := s2.creates + 1
            log := s2.log ++ [ServerLog.started s2.conf.Addr]
            wg := s2.wg + 2 }, [])

/-- Method `Down`. The result is `none` when the call panics with a nil dereference:
`s.epoll.CloseAll()` on a nil reactor, `s.listener.Close()` on a nil listener. The
background loops are taken to have drained when `s.wg.Wait()` returns. -/
def Server.Down (s : Server) : Option (Server × Error) :=
  let sw := Switch.Off s.status
  let s0 := { s with status := sw.1 }
  if !sw.2 then some (s0, errServAlreadyStopped)
  else
    match s0.epoll with
    | none => none
    | some v =>
      let r := CloseAll v
      match s0.listener with
      | none => none
      | some l =>
        let k := Listener.Close s0.shut l
        let err := errors.Wrap r.2 k.2
        let s1 := { s0 with epoll := some r.1, shut := k.1, wg := 0 }
        if err ≠ [] then
          some ({ s1 with log := s1.log ++ [ServerLog.stoppedErr err s1.conf.Addr] }, err)
        else
          some ({ s1 with log := s1.log ++ [ServerLog.stopped s1.conf.Addr] }, [])

end Epoll

namespace Sorts

open Go

/-! ## Bubble sort -/

/-- The exchange `list[i], list[j] = list[j], list[i]`. -/
def swap {α : Type} (list : List α) (i j : Nat) : List α :=
  match list[i]?, list[j]? with
  | some a, some b => (list.set i b).set j a
  | _, _ => list

/-- Modelled from the spec: the inner loop of `sorts.Bubble` (its source is not among
the sources, only its test is): `k` further comparisons of the neighbours at `j` and
`j + 1`, exchanging them when `less(j + 1, j)`. The callback `less` reads the slice as
it is at the time of the call. -/
def Bubble.inner {α : Type} (less : List α → Nat → Nat → Bool) :
    Nat → Nat → List α → List α
  | 0, _, list => list
  | k + 1, j, list =>
    Bubble.inner less k (j + 1) (if less list (j + 1) j then swap list j (j + 1) else list)

/-- Modelled from the spec: the outer loop of `sorts.Bubble`: `k` further passes, pass
`i` running over the first `len(list) - i` elements. -/
def Bubble.outer {α : Type} (less : List α → Nat → Nat → Bool) :
    Nat → Nat → List α → List α
  | 0, _, list => list
  | k + 1, i, list =>
    Bubble.outer less k (i + 1) (Bubble.inner less (list.length - i - 1) 0 list)

/-- Modelled from the spec: `sorts.Bubble(list, less)`, the in-place bubble sort called
by `TestUnit_SortBubble`; its source is not among the sources. The slice is rearranged
by exchanges only, so a nil slice stays nil. -/
def Bubble {α : Type} (list : Slice α) (less : List α → Nat → Nat → Bool) : Slice α :=
  match list with
  | none => none
  | some l => some (Bubble.outer less l.length 0 l)

/-- The callback of the test: `tt.args[i] < tt.args[j]`, reading the slice being
sorted; the indices it receives are in range. -/
def testLess (args : List Int) (i j : Nat) : Bool :=
  match args[i]?, args[j]? with
  | some a, some b => decide (a < b)
  | _, _ => false

/-- One pass of the inner loop read as a function on the part of the slice from the
current position on: `k` comparisons, the larger neighbour carried to the right. Used to
reason about `Bubble.inner`. -/
def pass : Nat → List Int → List Int
  | 0, l => l
  | _ + 1, [] => []
  | _ + 1, [a] => [a]
  | k + 1, a :: b :: t => if b < a then b :: pass k (a :: t) else a :: pass k (b :: t)

end Sorts

/-! # Theorems -/

namespace Epoll

open Go

/-! ## The registry as a map -/

theorem get_delete (m : epollNetMap) (fd k : Int) :
    epollNetMap.get (epollNetMap.delete m fd) k =
      if k = fd then none else epollNetMap.get m k := by
  induction m with
  | nil => simp [epollNetMap.delete, epollNetMap.get]
  | cons e rest ih =>
    obtain ⟨a, p⟩ := e
    unfold epollNetMap.delete at ih ⊢
    by_cases h : a = fd
    · subst h
      by_cases hk : k = a
      · subst hk
        simpa [epollNetMap.get] using ih
      · have hk2 : ¬ a = k := fun h => hk h.symm
        simpa [epollNetMap.get, hk, hk2] using ih
    · by_cases hk : k = fd
      · subst hk
        simpa [epollNetMap.get, h] using ih
      · by_cases hak : a = k
        · simp [epollNetMap.get, h, hak, hk, List.filter_cons]
        · simpa [epollNetMap.get, h, hak, hk, List.filter_cons] using ih

theorem get_set (m : epollNetMap) (fd k : Int) (p : Nat) :
    epollNetMap.get (epollNetMap.set m fd p) k =
      if k = fd then some p else epollNetMap.get m k := by
  unfold epollNetMap.set
  by_cases hk : k = fd
  · subst hk
    simp [epollNetMap.get]
  · have hk2 : ¬ fd = k := fun h => hk h.symm
    simp [epollNetMap.get, hk, hk2, get_delete]

theorem get_eq_none_iff (m : epollNetMap) (k : Int) :
    epollNetMap.get m k = none ↔ k ∉ epollNetMap.keys m := by
  induction m with
  | nil => simp [epollNetMap.get, epollNetMap.keys]
  | cons e rest ih =>
    obtain ⟨a, p⟩ := e
    by_cases h : a = k
    · simp [epollNetMap.get, epollNetMap.keys, h]
    · have h2 : ¬ k = a := fun x => h x.symm
      simpa [epollNetMap.get, epollNetMap.keys, h, h2] using ih

theorem mem_of_get (m : epollNetMap) (k : Int) (p : Nat)
    (h : epollNetMap.get m k = some p) : (k, p) ∈ m := by
  induction m with
  | nil => simp [epollNetMap.get] at h
  | cons e rest ih =>
    obtain ⟨a, q⟩ := e
    by_cases hak : a = k
    · simp [epollNetMap.get, hak] at h
      simp [hak, h]
    · simp [epollNetMap.get, hak] at h
      exact List.mem_cons_of_mem _ (ih h)

theorem get_of_mem (m : epollNetMap) (k : Int) (p : Nat)
    (hn : (epollNetMap.keys m).Nodup) (h : (k, p) ∈ m) : epollNetMap.get m k = some p := by
  induction m with
  | nil => simp at h
  | cons e rest ih =>
    obtain ⟨a, q⟩ := e
    simp only [epollNetMap.keys, List.map_cons, List.nodup_cons] at hn
    rcases List.mem_cons.mp h with h1 | h1
    · cases h1
      simp [epollNetMap.get]
    · have hak : ¬ a = k := by
        intro hak
        apply hn.1
        rw [hak]
        exact List.mem_map_of_mem Prod.fst h1
      simp only [epollNetMap.get, hak, if_false]
      exact ih hn.2 h1

theorem keys_delete (m : epollNetMap) (fd k : Int) :
    k ∈ epollNetMap.keys (epollNetMap.delete m fd) ↔ k ∈ epollNetMap.keys m ∧ k ≠ fd := by
  simp only [epollNetMap.keys, epollNetMap.delete, List.mem_map, List.mem_filter]
  constructor
  · rintro ⟨e, ⟨he, hne⟩, rfl⟩
    exact ⟨⟨e, he, rfl⟩, by simpa using hne⟩
  · rintro ⟨⟨e, he, rfl⟩, hne⟩
    exact ⟨e, ⟨he, by simpa using hne⟩, rfl⟩

/-! ## AddOrClose -/

/-- C1: `AddOrClose(c)` is atomic in outcome. If the `EPOLL_CTL_ADD` of the descriptor
of `c` fails, `c` is closed, a failure is returned, and the registry (with the heap of
items and the kernel interest list) is unchanged, so the descriptor does not enter it.
If it succeeds, nil is returned, no connection is closed, the registry maps the
descriptor to a newly allocated item holding `c` with `await = false`, and all other
registry entries and items are unchanged. -/
theorem AddOrClose_atomic (v : epoll) (c : NetConn) (fault : Option Nat) :
    ((AddOrClose.ctl v c fault).2 ≠ [] →
      c ∈ (AddOrClose v c fault).1.closed ∧
      (AddOrClose v c fault).2 ≠ [] ∧
      (AddOrClose v c fault).1.conn = v.conn ∧
      (AddOrClose v c fault).1.kernel = v.kernel ∧
      (AddOrClose v c fault).1.heap = v.heap ∧
      (AddOrClose v c fault).1.next = v.next) ∧
    ((AddOrClose.ctl v c fault).2 = [] →
      (AddOrClose v c fault).2 = [] ∧
      (AddOrClose v c fault).1.closed = v.closed ∧
      (AddOrClose v c fault).1.kernel = fd.ByConnect c :: v.kernel ∧
      epollNetMap.get (AddOrClose v c fault).1.conn (fd.ByConnect c) = some v.next ∧
      (AddOrClose v c fault).1.heap v.next =
        { Conn := c, Fd := fd.ByConnect c, await := false } ∧
      (AddOrClose v c fault).1.next = v.next + 1 ∧
      (∀ k, k ≠ fd.ByConnect c →
        epollNetMap.get (AddOrClose v c fault).1.conn k = epollNetMap.get v.conn k) ∧
      (∀ q, q ≠ v.next → (AddOrClose v c fault).1.heap q = v.heap q)) := by
  unfold AddOrClose AddOrClose.ctl AddOrClose.fail AddOrClose.store NetConn.Close EpollCtl
    errors.Wrap
  by_cases hmem : fd.ByConnect c ∈ v.kernel
  · simp [hmem]
    split <;> simp
  · cases fault with
    | some e =>
      simp [hmem]
      split <;> simp
    | none =>
      simp [hmem, get_set]
      refine ⟨?_, ?_⟩
      · intro k hk
        simp [hk]
      · intro q hq
        simp [hq]

/-! ## Close -/

theorem closeConn_heap (v : epoll) (p : Nat) : (closeConn v p).1.heap = v.heap := by
  unfold closeConn removeFD
  dsimp only
  split <;> rfl

theorem closeConn_next (v : epoll) (p : Nat) : (closeConn v p).1.next = v.next := by
  unfold closeConn removeFD
  dsimp only
  split <;> rfl

theorem closeConn_nets (v : epoll) (p : Nat) : (closeConn v p).1.nets = v.nets := by
  unfold closeConn removeFD
  dsimp only
  split <;> rfl

theorem closeConn_log (v : epoll) (p : Nat) : (closeConn v p).1.log = v.log := by
  unfold closeConn removeFD
  dsimp only
  split <;> rfl

/-- What `closeConn` does when the descriptor of the item is on the interest list. -/
theorem closeConn_registered (v : epoll) (p : Nat) (hker : (v.heap p).Fd ∈ v.kernel) :
    closeConn v p =
      ({ v with
          kernel := v.kernel.filter (fun x => x ≠ (v.heap p).Fd)
          conn := epollNetMap.delete v.conn (v.heap p).Fd
          closed := (v.heap p).Conn :: v.closed },
        (NetConn.Close v.closed (v.heap p).Conn).2) := by
  unfold closeConn removeFD EpollCtl NetConn.Close
  by_cases hc : (v.heap p).Conn ∈ v.closed <;> simp [hker, hc]

/-- What `closeConn` does when the descriptor of the item is not on the interest list. -/
theorem closeConn_unregistered (v : epoll) (p : Nat) (hker : (v.heap p).Fd ∉ v.kernel) :
    closeConn v p = (v, [Failure.errno ENOENT]) := by
  unfold closeConn removeFD EpollCtl
  simp [hker]

/-- C4: `Close` is idempotent in effect. For an item whose descriptor is registered
with the kernel facility (as that of every item in the registry is), the first
`Close(item)` takes the descriptor off the interest list, deletes it from the registry
and closes the connection, so that a registry lookup of the descriptor finds nothing;
a second `Close(item)` returns the `ENOENT` failure of the deregistration and changes
nothing: the connection is not closed a second time and the registry is as the first
call left it. `Close` is a total function: no call panics. -/
theorem Close_idempotent (v : epoll) (p : Nat) (hker : (v.heap p).Fd ∈ v.kernel) :
    (Close v p).1.kernel = v.kernel.filter (fun x => x ≠ (v.heap p).Fd) ∧
    (v.heap p).Fd ∉ (Close v p).1.kernel ∧
    (Close v p).1.conn = epollNetMap.delete v.conn (v.heap p).Fd ∧
    (Close v p).1.closed = (v.heap p).Conn :: v.closed ∧
    getConn (Close v p).1 (v.heap p).Fd = none ∧
    Close (Close v p).1 p = ((Close v p).1, [Failure.errno ENOENT]) ∧
    (Close (Close v p).1 p).1.conn = (Close v p).1.conn ∧
    (Close (Close v p).1 p).1.closed = (Close v p).1.closed ∧
    List.count (v.heap p).Conn (Close (Close v p).1 p).1.closed =
      List.count (v.heap p).Conn v.closed + 1 := by
  have h1 := closeConn_registered v p hker
  have hk : (v.heap p).Fd ∉ (Close v p).1.kernel := by
    unfold Close
    rw [h1]
    simp
  have h2 : Close (Close v p).1 p = ((Close v p).1, [Failure.errno ENOENT]) := by
    have hh : ((Close v p).1.heap p).Fd ∉ (Close v p).1.kernel := by
      have : (Close v p).1.heap = v.heap := closeConn_heap v p
      rw [this]
      exact hk
    exact closeConn_unregistered (Close v p).1 p hh
  refine ⟨?_, hk, ?_, ?_, ?_, h2, ?_, ?_, ?_⟩
  · unfold Close
    rw [h1]
  · unfold Close
    rw [h1]
  · unfold Close
    rw [h1]
  · unfold Close getConn
    rw [h1]
    simp [get_delete]
  · rw [h2]
  · rw [h2]
  · rw [h2]
    unfold Close
    rw [h1]
    simp

/-- C4 at a concrete reactor: connection 1 with descriptor 7 registered in the empty
reactor, its item at address 0 closed twice. -/
theorem Close_idempotent_witness :
    ((AddOrClose newEpoll { id := 1, fd := 7 } none).1.heap 0).Fd ∈
        (AddOrClose newEpoll { id := 1, fd := 7 } none).1.kernel ∧
    getConn (Close (AddOrClose newEpoll { id := 1, fd := 7 } none).1 0).1 7 = none ∧
    (Close (Close (AddOrClose newEpoll { id := 1, fd := 7 } none).1 0).1 0).1.closed =
      [{ id := 1, fd := 7 }] :=
  ⟨by decide,
   (Close_idempotent (AddOrClose newEpoll { id := 1, fd := 7 } none).1 0 (by decide)).2.2.2.2.1,
   ((Close_idempotent (AddOrClose newEpoll { id := 1, fd := 7 } none).1 0
      (by decide)).2.2.2.2.2.2.2.1).trans (by decide)⟩

/-! ## CloseAll -/

theorem CloseAll.body_eq (s : epoll × Error) (e : Int × Nat)
    (h : epollNetMap.get s.1.conn e.1 = some e.2) :
    CloseAll.body s e = ((closeConn s.1 e.2).1, s.2 ++ (closeConn s.1 e.2).2) := by
  unfold CloseAll.body errors.Wrap
  rw [if_pos h]
  dsimp only
  split
  · rfl
  · rename_i hnil
    have : (closeConn s.1 e.2).2 = [] := by simpa using hnil
    rw [this]
    simp

theorem closeConn_conn (v : epoll) (p : Nat) :
    (closeConn v p).1.conn = v.conn ∨
      (closeConn v p).1.conn = epollNetMap.delete v.conn (v.heap p).Fd := by
  by_cases hker : (v.heap p).Fd ∈ v.kernel
  · right
    rw [closeConn_registered v p hker]
  · left
    rw [closeConn_unregistered v p hker]

theorem CloseAll.foldl_eq (es : List (Int × Nat)) (s : epoll × Error)
    (hn : (epollNetMap.keys es).Nodup)
    (hes : ∀ e ∈ es, epollNetMap.get s.1.conn e.1 = some e.2 ∧ (s.1.heap e.2).Fd = e.1) :
    es.foldl CloseAll.body s = ((closeEach s.1 es).1, s.2 ++ (closeEach s.1 es).2.flatten) := by
  induction es generalizing s with
  | nil => simp [closeEach]
  | cons e rest ih =>
    simp only [epollNetMap.keys, List.map_cons, List.nodup_cons] at hn
    have he := hes e (List.mem_cons_self _ _)
    rw [List.foldl_cons, CloseAll.body_eq s e he.1]
    rw [ih _ hn.2]
    · simp [closeEach, List.append_assoc]
    · intro e1 he1
      have h1 := hes e1 (List.mem_cons_of_mem _ he1)
      have hne : e1.1 ≠ e.1 := by
        intro heq
        apply hn.1
        rw [← heq]
        exact List.mem_map_of_mem Prod.fst he1
      dsimp only
      rw [closeConn_heap]
      refine ⟨?_, h1.2⟩
      rcases closeConn_conn s.1 e.2 with hc | hc
      · rw [hc]
        exact h1.1
      · rw [hc, get_delete, he.2, if_neg hne]
        exact h1.1

/-- C6: `CloseAll` applies `closeConn` to every entry of the registry in turn, going on
after an entry that fails (it is `closeEach` over the entries, one outcome per entry),
returns the accumulated failures of the individual closes, which is nil if and only if
every individual close succeeded, and in every case leaves the registry empty. -/
theorem CloseAll_closes_every_entry (v : epoll) (hwf : WF v) :
    (CloseAll v).1 = { (closeEach v v.conn).1 with conn := [] } ∧
    (closeEach v v.conn).2.length = v.conn.length ∧
    (CloseAll v).2 = (closeEach v v.conn).2.flatten ∧
    ((CloseAll v).2 = [] ↔ ∀ err ∈ (closeEach v v.conn).2, err = []) ∧
    (CloseAll v).1.conn = [] := by
  have hfold := CloseAll.foldl_eq v.conn (v, []) hwf.1 (by
    intro e he
    exact ⟨get_of_mem v.conn e.1 e.2 hwf.1 he, (hwf.2.1 e he).1⟩)
  have hlen : ∀ (es : List (Int × Nat)) (s : epoll), (closeEach s es).2.length = es.length := by
    intro es
    induction es with
    | nil => intro s; simp [closeEach]
    | cons e rest ih => intro s; simp [closeEach, ih]
  have h2 : (CloseAll v).2 = (closeEach v v.conn).2.flatten := by
    unfold CloseAll
    dsimp only
    rw [hfold]
    simp
  refine ⟨?_, hlen _ _, h2, ?_, rfl⟩
  · unfold CloseAll
    dsimp only
    rw [hfold]
  · rw [h2]
    simp [List.flatten_eq_nil_iff]

/-- C6 at a concrete reactor: two connections registered, then `CloseAll`. -/
theorem CloseAll_closes_every_entry_witness :
    (CloseAll (runAll newEpoll
        [Op.addOrClose { id := 1, fd := 7 } none, Op.addOrClose { id := 2, fd := 9 } none])).2 =
      [] ∧
    (CloseAll (runAll newEpoll
        [Op.addOrClose { id := 1, fd := 7 } none, Op.addOrClose { id := 2, fd := 9 } none])).1.conn =
      [] :=
  have h := CloseAll_closes_every_entry (runAll newEpoll
      [Op.addOrClose { id := 1, fd := 7 } none, Op.addOrClose { id := 2, fd := 9 } none])
    ⟨by decide, by decide, by
      intro p hp
      have hp2 : p < 2 := hp
      interval_cases p <;> rfl⟩
  ⟨h.2.2.1.trans (by decide), h.2.2.2.2⟩

/-! ## Wait -/

theorem removeFD_frame (v : epoll) (fd : Int) :
    (removeFD v fd).1.conn = v.conn ∧ (removeFD v fd).1.nets = v.nets ∧
    (removeFD v fd).1.heap = v.heap ∧ (removeFD v fd).1.next = v.next ∧
    (removeFD v fd).1.closed = v.closed ∧ (removeFD v fd).1.log = v.log :=
  ⟨rfl, rfl, rfl, rfl, rfl, rfl⟩

theorem Wait.body_absent (v : epoll) (ev : EpollEvent) (h : getConn v ev.Fd = none) :
    Wait.body v ev =
      if (removeFD v ev.Fd).2 ≠ [] then
        { (removeFD v ev.Fd).1 with
          log := (removeFD v ev.Fd).1.log ++ [LogEntry.closeFd (removeFD v ev.Fd).2 ev.Fd] }
      else (removeFD v ev.Fd).1 := by
  unfold Wait.body
  simp only [h]

theorem Wait.body_awaiting (v : epoll) (ev : EpollEvent) (p : Nat)
    (h : getConn v ev.Fd = some p) (ha : IsAwait v p = true) : Wait.body v ev = v := by
  unfold Wait.body
  simp only [h, ha, if_true]

theorem Wait.body_ready (v : epoll) (ev : EpollEvent) (p : Nat)
    (h : getConn v ev.Fd = some p) (ha : IsAwait v p = false) (hev : ev.Events = POLLIN) :
    Wait.body v ev = { Await v p true with nets := (Await v p true).nets ++ [p] } := by
  unfold Wait.body
  simp [h, ha, hev]

theorem Wait.body_close (v : epoll) (ev : EpollEvent) (p : Nat)
    (h : getConn v ev.Fd = some p) (ha : IsAwait v p = false) (hev : ev.Events ≠ POLLIN) :
    Wait.body v ev =
      if (Close (Await v p true) p).2 ≠ [] then
        { (Close (Await v p true) p).1 with
          log := (Close (Await v p true) p).1.log ++
            [LogEntry.epollCloseConnect (Close (Await v p true) p).2] }
      else (Close (Await v p true) p).1 := by
  unfold Wait.body
  simp [h, ha, hev]

/-- The four ways the loop body of `Wait` can treat an event, by what it does to the
heap and to the ready list. -/
theorem Wait.body_cases (v : epoll) (ev : EpollEvent) :
    ((Wait.body v ev).heap = v.heap ∧ (Wait.body v ev).nets = v.nets) ∨
    (∃ p, getConn v ev.Fd = some p ∧ IsAwait v p = false ∧
      (Wait.body v ev).heap = (Await v p true).heap ∧
      ((Wait.body v ev).nets = v.nets ∨
        (ev.Events = POLLIN ∧ (Wait.body v ev).nets = v.nets ++ [p]))) := by
  cases h : getConn v ev.Fd with
  | none =>
    left
    rw [Wait.body_absent v ev h]
    split <;> exact ⟨rfl, rfl⟩
  | some p =>
    cases ha : IsAwait v p with
    | true =>
      left
      rw [Wait.body_awaiting v ev p h ha]
      exact ⟨rfl, rfl⟩
    | false =>
      right
      refine ⟨p, rfl, ha, ?_⟩
      by_cases hev : ev.Events = POLLIN
      · rw [Wait.body_ready v ev p h ha hev]
        exact ⟨rfl, Or.inr ⟨hev, rfl⟩⟩
      · rw [Wait.body_close v ev p h ha hev]
        unfold Close
        split
        · exact ⟨closeConn_heap _ _, Or.inl (closeConn_nets _ _)⟩
        · exact ⟨closeConn_heap _ _, Or.inl (closeConn_nets _ _)⟩

theorem IsAwait_Await (v : epoll) (p q : Nat) :
    IsAwait (Await v p true) q = if q = p then true else IsAwait v q := by
  unfold IsAwait Await
  by_cases h : q = p <;> simp [h]

theorem WaitInv_body (v s : epoll) (ev : EpollEvent) (h : WaitInv v s) :
    WaitInv v (Wait.body s ev) := by
  obtain ⟨h1, h2, h3⟩ := h
  have key : ∀ q, IsAwait (Wait.body s ev) q = (s.heap q).await ∨
      ∃ p, IsAwait s p = false ∧
        IsAwait (Wait.body s ev) q = if q = p then true else IsAwait s q := by
    intro q
    rcases Wait.body_cases s ev with ⟨hh, _⟩ | ⟨p, _, hp, hh, _⟩
    · left
      unfold IsAwait
      rw [hh]
    · right
      refine ⟨p, hp, ?_⟩
      rw [← IsAwait_Await]
      unfold IsAwait
      rw [hh]
  have mono : ∀ q, IsAwait s q = true → IsAwait (Wait.body s ev) q = true := by
    intro q hq
    rcases key q with hk | ⟨p, _, hk⟩
    · rw [hk]
      exact hq
    · rw [hk]
      split
      · rfl
      · exact hq
  refine ⟨fun q hq => mono q (h1 q hq), ?_, ?_⟩
  · intro p hp
    rcases Wait.body_cases s ev with ⟨_, hn⟩ | ⟨p0, _, hp0, hh, hn | ⟨_, hn⟩⟩
    · rw [hn] at hp
      exact ⟨(h2 p hp).1, mono p (h2 p hp).2⟩
    · rw [hn] at hp
      exact ⟨(h2 p hp).1, mono p (h2 p hp).2⟩
    · rw [hn] at hp
      rcases List.mem_append.mp hp with hp | hp
      · exact ⟨(h2 p hp).1, mono p (h2 p hp).2⟩
      · have hpp : p = p0 := by simpa using hp
        subst hpp
        refine ⟨?_, ?_⟩
        · cases hv : IsAwait v p with
          | false => rfl
          | true =>
            have := h1 p hv
            rw [hp0] at this
            exact absurd this (by simp)
        · have : IsAwait (Wait.body s ev) p = IsAwait (Await s p true) p := by
            unfold IsAwait
            rw [hh]
          rw [this, IsAwait_Await]
          simp
  · rcases Wait.body_cases s ev with ⟨_, hn⟩ | ⟨p0, _, hp0, hh, hn | ⟨_, hn⟩⟩
    · rw [hn]
      exact h3
    · rw [hn]
      exact h3
    · rw [hn]
      apply List.Nodup.append h3 (List.nodup_singleton _)
      intro a ha hb
      have hab : a = p0 := by simpa using hb
      subst hab
      have := (h2 a ha).2
      rw [hp0] at this
      exact absurd this (by simp)

theorem WaitInv_foldl (evs : List EpollEvent) (v s : epoll) (h : WaitInv v s) :
    WaitInv v (evs.foldl Wait.body s) := by
  induction evs generalizing s with
  | nil => exact h
  | cons ev rest ih => exact ih _ (WaitInv_body v s ev h)

theorem Wait.body_conn (v : epoll) (ev : EpollEvent) :
    (Wait.body v ev).conn = v.conn ∨
    (∃ p, getConn v ev.Fd = some p ∧
      (Wait.body v ev).conn = epollNetMap.delete v.conn (v.heap p).Fd) := by
  cases h : getConn v ev.Fd with
  | none =>
    left
    rw [Wait.body_absent v ev h]
    split <;> rfl
  | some p =>
    cases ha : IsAwait v p with
    | true =>
      left
      rw [Wait.body_awaiting v ev p h ha]
    | false =>
      by_cases hev : ev.Events = POLLIN
      · left
        rw [Wait.body_ready v ev p h ha hev]
        rfl
      · have hfd : ((Await v p true).heap p).Fd = (v.heap p).Fd := by
          simp [Await]
        rw [Wait.body_close v ev p h ha hev]
        unfold Close
        rcases closeConn_conn (Await v p true) p with hc | hc
        · left
          split <;> exact hc
        · right
          rw [hfd] at hc
          exact ⟨p, rfl, by split <;> exact hc⟩

theorem Wait.body_nets_mono (v : epoll) (ev : EpollEvent) (p : Nat) (h : p ∈ v.nets) :
    p ∈ (Wait.body v ev).nets := by
  rcases Wait.body_cases v ev with ⟨_, hn⟩ | ⟨_, _, _, _, hn | ⟨_, hn⟩⟩
  · rw [hn]; exact h
  · rw [hn]; exact h
  · rw [hn]; exact List.mem_append_left _ h

theorem Wait.foldl_nets_mono (evs : List EpollEvent) (v : epoll) (p : Nat) (h : p ∈ v.nets) :
    p ∈ (evs.foldl Wait.body v).nets := by
  induction evs generalizing v with
  | nil => exact h
  | cons ev rest ih => exact ih _ (Wait.body_nets_mono v ev p h)

theorem Untouched_body (s : epoll) (fd : Int) (p : Nat) (ev : EpollEvent)
    (h : Untouched s fd p) (hne : ev.Fd ≠ fd) : Untouched (Wait.body s ev) fd p := by
  obtain ⟨hfd, hget, haw⟩ := h
  have hpfd : (s.heap p).Fd = fd := hfd (fd, p) (mem_of_get _ _ _ hget)
  -- the heap keeps descriptors, and keeps the flag of `p`
  have hheap : (∀ q, ((Wait.body s ev).heap q).Fd = (s.heap q).Fd) ∧
      IsAwait (Wait.body s ev) p = false := by
    rcases Wait.body_cases s ev with ⟨hh, _⟩ | ⟨q, hq, _, hh, _⟩
    · unfold IsAwait
      rw [hh]
      exact ⟨fun _ => rfl, haw⟩
    · have hqfd : (s.heap q).Fd = ev.Fd := hfd (ev.Fd, q) (mem_of_get _ _ _ hq)
      have hqp : p ≠ q := by
        intro hpq
        rw [hpq] at hpfd
        exact hne (hqfd.symm.trans hpfd)
      unfold IsAwait
      rw [hh]
      refine ⟨?_, ?_⟩
      · intro r
        by_cases hr : r = q <;> simp [Await, hr]
      · have := IsAwait_Await s q p
        unfold IsAwait at this
        rw [this, if_neg hqp]
        exact haw
  refine ⟨?_, ?_, hheap.2⟩
  · intro e he
    rw [hheap.1]
    rcases Wait.body_conn s ev with hc | ⟨q, _, hc⟩
    · rw [hc] at he
      exact hfd e he
    · rw [hc] at he
      exact hfd e (List.mem_of_mem_filter he)
  · unfold getConn at hget ⊢
    rcases Wait.body_conn s ev with hc | ⟨q, hq, hc⟩
    · rw [hc]
      exact hget
    · have hqfd : (s.heap q).Fd = ev.Fd := hfd (ev.Fd, q) (mem_of_get _ _ _ hq)
      rw [hc, get_delete, hqfd, if_neg (fun h => hne h.symm)]
      exact hget

theorem Untouched_foldl (evs : List EpollEvent) (s : epoll) (fd : Int) (p : Nat)
    (h : Untouched s fd p) (hne : ∀ ev ∈ evs, ev.Fd ≠ fd) :
    Untouched (evs.foldl Wait.body s) fd p := by
  induction evs generalizing s with
  | nil => exact h
  | cons ev rest ih =>
    exact ih _ (Untouched_body s fd p ev h (hne ev (List.mem_cons_self _ _)))
      (fun e he => hne e (List.mem_cons_of_mem _ he))

/-- The ready list of `Wait` and the reactor it leaves satisfy the loop invariant. -/
theorem Wait.inv (v : epoll) (res : Except Failure (List EpollEvent)) :
    (∀ q, IsAwait v q = true → IsAwait (Wait v res).1 q = true) ∧
    (∀ p ∈ (Wait v res).2.1, IsAwait v p = false ∧ IsAwait (Wait v res).1 p = true) ∧
    (Wait v res).2.1.Nodup := by
  unfold Wait
  cases res with
  | error e => simp
  | ok events =>
    dsimp only
    split
    · simp
    · have h0 : WaitInv v { v with nets := [] } :=
        ⟨fun q hq => hq, fun p hp => absurd hp (List.not_mem_nil p), List.nodup_nil⟩
      exact WaitInv_foldl events v _ h0

/-- C2: a descriptor marked awaiting is not handed to a second dispatch until the flag
is cleared. For every reactor and every outcome of the wait syscall, the ready list
returned by `Wait` contains no item whose flag was set when `Wait` was called,
contains each item at most once, and every item in it has its flag set afterwards.
Hence no item of the ready list of one `Wait` is in the ready list of the next `Wait`
(nothing clearing the flag in between), whatever is reported to either. In particular
an item that is filed in the registry under its descriptor with the flag clear, and
whose descriptor is first reported as pure read-readiness, is in the first ready list
and not in the second. -/
theorem Wait_no_double_dispatch (v : epoll) (res res2 : Except Failure (List EpollEvent)) :
    (∀ p ∈ (Wait v res).2.1, IsAwait v p = false) ∧
    (Wait v res).2.1.Nodup ∧
    (∀ p ∈ (Wait v res).2.1, IsAwait (Wait v res).1 p = true) ∧
    (∀ p ∈ (Wait v res).2.1, p ∉ (Wait (Wait v res).1 res2).2.1) ∧
    (∀ (fd : Int) (p : Nat) (pre post : List EpollEvent),
      (∀ e ∈ v.conn, (v.heap e.2).Fd = e.1) → getConn v fd = some p → IsAwait v p = false →
      (∀ ev ∈ pre, ev.Fd ≠ fd) →
      p ∈ (Wait v (Except.ok (pre ++ { Events := POLLIN, Fd := fd } :: post))).2.1 ∧
      p ∉ (Wait (Wait v (Except.ok (pre ++ { Events := POLLIN, Fd := fd } :: post))).1
              res2).2.1) := by
  have hsecond : ∀ (r : Except Failure (List EpollEvent)),
      ∀ p ∈ (Wait v r).2.1, p ∉ (Wait (Wait v r).1 res2).2.1 := by
    intro r p hp hp2
    have h1 := ((Wait.inv v r).2.1 p hp).2
    have h2 := ((Wait.inv (Wait v r).1 res2).2.1 p hp2).1
    rw [h1] at h2
    exact absurd h2 (by simp)
  refine ⟨fun p hp => ((Wait.inv v res).2.1 p hp).1, (Wait.inv v res).2.2,
    fun p hp => ((Wait.inv v res).2.1 p hp).2, hsecond res, ?_⟩
  intro fd p pre post hfd hget haw hpre
  have hin : p ∈ (Wait v (Except.ok (pre ++ { Events := POLLIN, Fd := fd } :: post))).2.1 := by
    unfold Wait
    have hlen : ¬ (pre ++ ({ Events := POLLIN, Fd := fd } : EpollEvent) :: post).length ≤ 0 := by
      simp
    simp only [hlen, if_false]
    rw [List.foldl_append, List.foldl_cons]
    apply Wait.foldl_nets_mono
    have hU : Untouched (pre.foldl Wait.body { v with nets := [] }) fd p :=
      Untouched_foldl pre _ fd p ⟨hfd, hget, haw⟩ hpre
    rw [Wait.body_ready _ { Events := POLLIN, Fd := fd } p hU.2.1 hU.2.2 rfl]
    simp [Await]
  exact ⟨hin, hsecond _ p hin⟩

/-- C2 at a concrete reactor: descriptor 7 registered and reported read-ready to two
consecutive calls of `Wait`: its item is handed out by the first call only. -/
theorem Wait_no_double_dispatch_witness :
    (Wait (AddOrClose newEpoll { id := 1, fd := 7 } none).1
        (Except.ok [{ Events := POLLIN, Fd := 7 }])).2.1 = [0] ∧
    0 ∉ (Wait (Wait (AddOrClose newEpoll { id := 1, fd := 7 } none).1
        (Except.ok [{ Events := POLLIN, Fd := 7 }])).1
        (Except.ok [{ Events := POLLIN, Fd := 7 }])).2.1 :=
  ⟨by decide,
   ((Wait_no_double_dispatch (AddOrClose newEpoll { id := 1, fd := 7 } none).1
      (Except.ok [{ Events := POLLIN, Fd := 7 }])
      (Except.ok [{ Events := POLLIN, Fd := 7 }])).2.2.2.2 7 0 [] []
      (by decide) (by decide) (by decide) (by decide)).2⟩

theorem Wait.body_await_mono (v : epoll) (ev : EpollEvent) (q : Nat)
    (h : IsAwait v q = true) : IsAwait (Wait.body v ev) q = true := by
  rcases Wait.body_cases v ev with ⟨hh, _⟩ | ⟨p, _, _, hh, _⟩
  · unfold IsAwait at h ⊢
    rw [hh]
    exact h
  · have := IsAwait_Await v p q
    unfold IsAwait at this h ⊢
    rw [hh, this]
    split
    · rfl
    · exact h

theorem Wait.foldl_nets_new (evs : List EpollEvent) (v : epoll) (q : Nat)
    (h : q ∈ (evs.foldl Wait.body v).nets) : q ∈ v.nets ∨ IsAwait v q = false := by
  induction evs generalizing v with
  | nil => exact Or.inl h
  | cons ev rest ih =>
    rcases ih (Wait.body v ev) h with h1 | h1
    · rcases Wait.body_cases v ev with ⟨_, hn⟩ | ⟨p, _, hp, _, hn | ⟨_, hn⟩⟩
      · rw [hn] at h1; exact Or.inl h1
      · rw [hn] at h1; exact Or.inl h1
      · rw [hn] at h1
        rcases List.mem_append.mp h1 with h2 | h2
        · exact Or.inl h2
        · have hqp : q = p := by simpa using h2
          rw [hqp]
          exact Or.inr hp
    · right
      cases hv : IsAwait v q with
      | false => rfl
      | true =>
        rw [Wait.body_await_mono v ev q hv] at h1
        exact absurd h1 (by simp)

theorem Wait.foldl_nets_append (evs : List EpollEvent) (v : epoll) :
    ∃ tail, (evs.foldl Wait.body v).nets = v.nets ++ tail := by
  induction evs generalizing v with
  | nil => exact ⟨[], by simp⟩
  | cons ev rest ih =>
    obtain ⟨t, ht⟩ := ih (Wait.body v ev)
    rw [List.foldl_cons, ht]
    rcases Wait.body_cases v ev with ⟨_, hn⟩ | ⟨p, _, _, _, hn | ⟨_, hn⟩⟩
    · exact ⟨t, by rw [hn]⟩
    · exact ⟨t, by rw [hn]⟩
    · exact ⟨p :: t, by rw [hn]; simp⟩

theorem removeFD_not_mem (v : epoll) (fd : Int) : fd ∉ (removeFD v fd).1.kernel := by
  unfold removeFD EpollCtl
  by_cases h : fd ∈ v.kernel <;> simp [h]

/-- C7: `Wait` classifies each reported event by kind. Let `s` be the reactor when the
event `ev` is reached, after the events `pre` reported before it. If the descriptor of
`ev` is in the registry with the flag of its item `p` clear, the flag is set and then:
if the mask is exactly `POLLIN`, `p` is appended to the ready list (which is returned
in event order: the items of earlier events, then `p`, then items of later events),
and registry, interest list and closed connections stay as they are; if the mask is
anything else, `Close` is applied to the item at once and the item is not in the
returned ready list. If the descriptor is absent from the registry, it is taken off the
kernel interest list and the event is skipped: registry, ready list, items and closed
connections stay as they are. -/
theorem Wait_classifies_events (v : epoll) (pre post : List EpollEvent) (ev : EpollEvent) :
    (∀ p, getConn (Wait.reached v pre) ev.Fd = some p →
      IsAwait (Wait.reached v pre) p = false →
      IsAwait (Wait.body (Wait.reached v pre) ev) p = true ∧
      (ev.Events = POLLIN →
        (Wait.body (Wait.reached v pre) ev).nets =
          (Wait.reached v pre).nets ++ [p] ∧
        (Wait.body (Wait.reached v pre) ev).conn =
          (Wait.reached v pre).conn ∧
        (Wait.body (Wait.reached v pre) ev).closed =
          (Wait.reached v pre).closed ∧
        (Wait.body (Wait.reached v pre) ev).kernel =
          (Wait.reached v pre).kernel ∧
        ∃ tail, (Wait v (Except.ok (pre ++ ev :: post))).2.1 =
          (Wait.reached v pre).nets ++ p :: tail) ∧
      (ev.Events ≠ POLLIN →
        (Wait.body (Wait.reached v pre) ev).nets =
          (Wait.reached v pre).nets ∧
        (Wait.body (Wait.reached v pre) ev).kernel =
          (Close (Await (Wait.reached v pre) p true) p).1.kernel ∧
        (Wait.body (Wait.reached v pre) ev).conn =
          (Close (Await (Wait.reached v pre) p true) p).1.conn ∧
        (Wait.body (Wait.reached v pre) ev).closed =
          (Close (Await (Wait.reached v pre) p true) p).1.closed ∧
        p ∉ (Wait v (Except.ok (pre ++ ev :: post))).2.1)) ∧
    (getConn (Wait.reached v pre) ev.Fd = none →
      ev.Fd ∉ (Wait.body (Wait.reached v pre) ev).kernel ∧
      (Wait.body (Wait.reached v pre) ev).kernel =
        (removeFD (Wait.reached v pre) ev.Fd).1.kernel ∧
      (Wait.body (Wait.reached v pre) ev).conn =
        (Wait.reached v pre).conn ∧
      (Wait.body (Wait.reached v pre) ev).nets =
        (Wait.reached v pre).nets ∧
      (Wait.body (Wait.reached v pre) ev).heap =
        (Wait.reached v pre).heap ∧
      (Wait.body (Wait.reached v pre) ev).closed =
        (Wait.reached v pre).closed) := by
  unfold Wait.reached
  generalize hs : pre.foldl Wait.body { v with nets := [] } = s
  have hinv : WaitInv v s := by
    rw [← hs]
    exact WaitInv_foldl pre v _
      ⟨fun q hq => hq, fun p hp => absurd hp (List.not_mem_nil p), List.nodup_nil⟩
  have hready : (Wait v (Except.ok (pre ++ ev :: post))).2.1 =
      (post.foldl Wait.body (Wait.body s ev)).nets := by
    unfold Wait
    have hlen : ¬ (pre ++ ev :: post).length ≤ 0 := by simp
    simp only [hlen, if_false]
    rw [List.foldl_append, List.foldl_cons, hs]
  refine ⟨?_, ?_⟩
  · intro p hget haw
    have hset : IsAwait (Await s p true) p = true := by simp [IsAwait_Await]
    refine ⟨?_, ?_, ?_⟩
    · by_cases hev : ev.Events = POLLIN
      · rw [Wait.body_ready s ev p hget haw hev]
        exact hset
      · rw [Wait.body_close s ev p hget haw hev]
        unfold Close IsAwait at *
        split
        · show ((closeConn (Await s p true) p).1.heap p).await = true
          rw [closeConn_heap]
          exact hset
        · rw [closeConn_heap]
          exact hset
    · intro hev
      rw [hready, Wait.body_ready s ev p hget haw hev]
      refine ⟨rfl, rfl, rfl, rfl, ?_⟩
      obtain ⟨t, ht⟩ := Wait.foldl_nets_append post
        { Await s p true with nets := (Await s p true).nets ++ [p] }
      exact ⟨t, by rw [ht]; simp [Await]⟩
    · intro hev
      have hbody := Wait.body_close s ev p hget haw hev
      have hnets : (Wait.body s ev).nets = s.nets := by
        rw [hbody]
        unfold Close
        split
        · exact closeConn_nets _ _
        · exact closeConn_nets _ _
      refine ⟨hnets, ?_, ?_, ?_, ?_⟩
      · rw [hbody]; split <;> rfl
      · rw [hbody]; split <;> rfl
      · rw [hbody]; split <;> rfl
      · rw [hready]
        intro hp
        rcases Wait.foldl_nets_new post _ p hp with h1 | h1
        · rw [hnets] at h1
          have := (hinv.2.1 p h1).2
          rw [haw] at this
          exact absurd this (by simp)
        · have h2 : IsAwait (Wait.body s ev) p = true := by
            rw [hbody]
            unfold Close IsAwait at *
            split
            · show ((closeConn (Await s p true) p).1.heap p).await = true
              rw [closeConn_heap]
              exact hset
            · rw [closeConn_heap]
              exact hset
          rw [h2] at h1
          exact absurd h1 (by simp)
  · intro hget
    rw [Wait.body_absent s ev hget]
    have hnm := removeFD_not_mem s ev.Fd
    split
    · exact ⟨hnm, rfl, rfl, rfl, rfl, rfl⟩
    · exact ⟨hnm, rfl, rfl, rfl, rfl, rfl⟩

/-! ## Well-formedness is kept by every operation -/

theorem AddOrClose_failed (v : epoll) (c : NetConn) (fault : Option Nat)
    (h : (AddOrClose.ctl v c fault).2 ≠ []) :
    (AddOrClose v c fault).1 = { v with closed := c :: v.closed } := by
  have hk : (AddOrClose.ctl v c fault).1 = v := by
    unfold AddOrClose.ctl EpollCtl at h ⊢
    by_cases hmem : fd.ByConnect c ∈ v.kernel
    · simp [hmem]
    · cases fault with
      | some e => simp [hmem]
      | none => simp [hmem] at h
  unfold AddOrClose
  simp only [h, ne_eq, not_false_eq_true, if_true]
  rw [hk]
  unfold AddOrClose.fail NetConn.Close
  split <;> rfl

theorem AddOrClose_registered (v : epoll) (c : NetConn) (fault : Option Nat)
    (h : (AddOrClose.ctl v c fault).2 = []) :
    (AddOrClose v c fault).1 =
      { v with
        kernel := fd.ByConnect c :: v.kernel
        conn := epollNetMap.set v.conn (fd.ByConnect c) v.next
        heap := fun q =>
          if q = v.next then { Conn := c, Fd := fd.ByConnect c, await := false } else v.heap q
        next := v.next + 1 } := by
  have hk : (AddOrClose.ctl v c fault).1 = { v with kernel := fd.ByConnect c :: v.kernel } := by
    unfold AddOrClose.ctl EpollCtl at h ⊢
    by_cases hmem : fd.ByConnect c ∈ v.kernel
    · simp [hmem] at h
    · cases fault with
      | some e => simp [hmem] at h
      | none => simp [hmem]
  unfold AddOrClose
  simp only [h, ne_eq, not_true_eq_false, if_false]
  rw [hk]
  rfl

theorem ctl_ok_not_mem (v : epoll) (c : NetConn) (fault : Option Nat)
    (h : (AddOrClose.ctl v c fault).2 = []) : fd.ByConnect c ∉ v.kernel := by
  intro hmem
  unfold AddOrClose.ctl EpollCtl at h
  simp [hmem] at h

theorem keys_set (m : epollNetMap) (fd k : Int) (p : Nat) :
    k ∈ epollNetMap.keys (epollNetMap.set m fd p) ↔ k = fd ∨ k ∈ epollNetMap.keys m := by
  have hd := keys_delete m fd k
  unfold epollNetMap.set
  unfold epollNetMap.keys at hd ⊢
  rw [List.map_cons, List.mem_cons, hd]
  constructor
  · rintro (h | h)
    · exact Or.inl h
    · exact Or.inr h.1
  · rintro (h | h)
    · exact Or.inl h
    · by_cases hk : k = fd
      · exact Or.inl hk
      · exact Or.inr ⟨h, hk⟩

theorem nodup_delete (m : epollNetMap) (fd : Int) (h : (epollNetMap.keys m).Nodup) :
    (epollNetMap.keys (epollNetMap.delete m fd)).Nodup := by
  unfold epollNetMap.keys epollNetMap.delete at *
  exact List.Nodup.sublist (List.Sublist.map _ (List.filter_sublist _)) h

theorem AddOrClose_WF (v : epoll) (c : NetConn) (fault : Option Nat) (h : WF v) :
    WF (AddOrClose v c fault).1 := by
  by_cases hc : (AddOrClose.ctl v c fault).2 = []
  · rw [AddOrClose_registered v c fault hc]
    obtain ⟨h1, h2, h3⟩ := h
    refine ⟨?_, ?_, ?_⟩
    · show (epollNetMap.keys (epollNetMap.set v.conn (fd.ByConnect c) v.next)).Nodup
      unfold epollNetMap.set epollNetMap.keys
      rw [List.map_cons, List.nodup_cons]
      refine ⟨?_, nodup_delete _ _ h1⟩
      intro hm
      exact ((keys_delete v.conn (fd.ByConnect c) (fd.ByConnect c)).mp hm).2 rfl
    · intro e he
      rcases List.mem_cons.mp he with he | he
      · subst he
        simp
      · have hmem := List.mem_of_mem_filter he
        have hlt := (h2 e hmem).2
        have hne : e.2 ≠ v.next := Nat.ne_of_lt hlt
        dsimp only
        rw [if_neg hne]
        exact ⟨(h2 e hmem).1, Nat.lt_succ_of_lt hlt⟩
    · intro p hp
      dsimp only at hp ⊢
      by_cases hpn : p = v.next
      · simp [hpn]
      · rw [if_neg hpn]
        exact h3 p (Nat.lt_of_le_of_ne (Nat.lt_succ_iff.mp hp) hpn)
  · rw [AddOrClose_failed v c fault hc]
    exact h

theorem closeConn_WF (v : epoll) (p : Nat) (h : WF v) : WF (closeConn v p).1 := by
  by_cases hker : (v.heap p).Fd ∈ v.kernel
  · rw [closeConn_registered v p hker]
    obtain ⟨h1, h2, h3⟩ := h
    exact ⟨nodup_delete _ _ h1, fun e he => h2 e (List.mem_of_mem_filter he), h3⟩
  · rw [closeConn_unregistered v p hker]
    exact h

theorem Await_WF (v : epoll) (p : Nat) (b : Bool) (h : WF v) : WF (Await v p b) := by
  obtain ⟨h1, h2, h3⟩ := h
  refine ⟨h1, ?_, ?_⟩
  · intro e he
    have := h2 e he
    unfold Await
    dsimp only
    by_cases hq : e.2 = p
    · rw [if_pos hq, ← hq]
      exact this
    · rw [if_neg hq]
      exact this
  · intro q hq
    have := h3 q hq
    unfold Await
    dsimp only
    by_cases hqp : q = p
    · rw [if_pos hqp, ← hqp]
      exact this
    · rw [if_neg hqp]
      exact this

theorem Wait.body_WF (v : epoll) (ev : EpollEvent) (h : WF v) : WF (Wait.body v ev) := by
  cases hg : getConn v ev.Fd with
  | none =>
    rw [Wait.body_absent v ev hg]
    split <;> exact h
  | some p =>
    cases ha : IsAwait v p with
    | true =>
      rw [Wait.body_awaiting v ev p hg ha]
      exact h
    | false =>
      by_cases hev : ev.Events = POLLIN
      · rw [Wait.body_ready v ev p hg ha hev]
        exact Await_WF v p true h
      · rw [Wait.body_close v ev p hg ha hev]
        have := closeConn_WF (Await v p true) p (Await_WF v p true h)
        unfold Close
        split <;> exact this

theorem Wait.foldl_WF (evs : List EpollEvent) (v : epoll) (h : WF v) :
    WF (evs.foldl Wait.body v) := by
  induction evs generalizing v with
  | nil => exact h
  | cons ev rest ih => exact ih _ (Wait.body_WF v ev h)

theorem Wait_WF (v : epoll) (res : Except Failure (List EpollEvent)) (h : WF v) :
    WF (Wait v res).1 := by
  unfold Wait
  cases res with
  | error e => exact h
  | ok events =>
    dsimp only
    split
    · exact h
    · exact Wait.foldl_WF events _ h

theorem closeEach_frame (es : List (Int × Nat)) (v : epoll) :
    (closeEach v es).1.heap = v.heap ∧ (closeEach v es).1.next = v.next := by
  induction es generalizing v with
  | nil => exact ⟨rfl, rfl⟩
  | cons e rest ih =>
    unfold closeEach
    dsimp only
    rw [(ih _).1, (ih _).2, closeConn_heap, closeConn_next]
    exact ⟨rfl, rfl⟩

theorem CloseAll_state (v : epoll) (h : WF v) :
    (CloseAll v).1 = { (closeEach v v.conn).1 with conn := [] } := by
  have hfold := CloseAll.foldl_eq v.conn (v, []) h.1 (by
    intro e he
    exact ⟨get_of_mem v.conn e.1 e.2 h.1 he, (h.2.1 e he).1⟩)
  unfold CloseAll
  dsimp only
  rw [hfold]

theorem CloseAll_WF (v : epoll) (h : WF v) : WF (CloseAll v).1 := by
  rw [CloseAll_state v h]
  refine ⟨List.nodup_nil, fun e he => absurd he (List.not_mem_nil e), ?_⟩
  intro p hp
  have hf := closeEach_frame v.conn v
  dsimp only at hp ⊢
  rw [hf.2] at hp
  rw [hf.1]
  exact h.2.2 p hp

theorem Op.run_WF (v : epoll) (o : Op) (h : WF v) : WF (Op.run v o) := by
  cases o with
  | addOrClose c fault => exact AddOrClose_WF v c fault h
  | close c => exact closeConn_WF v c h
  | closeAll => exact CloseAll_WF v h
  | wait res => exact Wait_WF v res h

theorem newEpoll_WF : WF newEpoll :=
  ⟨List.nodup_nil, fun e he => absurd he (List.not_mem_nil e),
    fun p hp => absurd hp (Nat.not_lt_zero p)⟩

/-- Every reactor built from the empty one by calls of the four operations, with any
inputs, is well-formed. -/
theorem runAll_WF (ops : List Op) (v : epoll) (h : WF v) : WF (runAll v ops) := by
  induction ops generalizing v with
  | nil => exact h
  | cons o rest ih => exact ih _ (Op.run_WF v o h)

/-! ## The lock-step property -/

theorem closeConn_lockStep (v : epoll) (p : Nat) (hwf : WF v) (hl : lockStep v)
    (hp : p < v.next) : lockStep (closeConn v p).1 := by
  by_cases hker : (v.heap p).Fd ∈ v.kernel
  · rw [closeConn_registered v p hker]
    obtain ⟨h1, h2, h3⟩ := hwf
    refine ⟨?_, ?_⟩
    · intro k
      dsimp only
      rw [keys_delete, ← hl.1 k]
      simp [List.mem_filter]
    · intro e he
      have hmem : e ∈ v.conn := List.mem_of_mem_filter he
      have hne : e.1 ≠ (v.heap p).Fd := by
        have := (List.mem_filter.mp he).2
        simpa using this
      dsimp only
      intro hc
      rcases List.mem_cons.mp hc with hc | hc
      · apply hne
        rw [← (h2 e hmem).1, ← h3 e.2 (h2 e hmem).2, ← h3 p hp, hc]
      · exact hl.2 e hmem hc
  · rw [closeConn_unregistered v p hker]
    exact hl

theorem Await_lockStep (v : epoll) (p : Nat) (b : Bool) (h : lockStep v) :
    lockStep (Await v p b) := by
  refine ⟨h.1, ?_⟩
  intro e he
  have := h.2 e he
  unfold Await
  dsimp only
  by_cases hq : e.2 = p
  · rw [if_pos hq, ← hq]
    exact this
  · rw [if_neg hq]
    exact this

theorem Wait.body_lockStep (v : epoll) (ev : EpollEvent) (hwf : WF v) (h : lockStep v) :
    lockStep (Wait.body v ev) := by
  cases hg : getConn v ev.Fd with
  | none =>
    rw [Wait.body_absent v ev hg]
    have hk : ev.Fd ∉ v.kernel := by
      rw [h.1]
      exact (get_eq_none_iff _ _).mp hg
    have hr : removeFD v ev.Fd = (v, [Failure.errno ENOENT]) := by
      unfold removeFD EpollCtl
      simp [hk]
    rw [hr]
    split <;> exact h
  | some p =>
    cases ha : IsAwait v p with
    | true =>
      rw [Wait.body_awaiting v ev p hg ha]
      exact h
    | false =>
      by_cases hev : ev.Events = POLLIN
      · rw [Wait.body_ready v ev p hg ha hev]
        exact Await_lockStep v p true h
      · rw [Wait.body_close v ev p hg ha hev]
        have hp : p < v.next := (hwf.2.1 (ev.Fd, p) (mem_of_get _ _ _ hg)).2
        have := closeConn_lockStep (Await v p true) p (Await_WF v p true hwf)
          (Await_lockStep v p true h) hp
        unfold Close
        split <;> exact this

theorem Wait.foldl_lockStep (evs : List EpollEvent) (v : epoll) (hwf : WF v)
    (h : lockStep v) : lockStep (evs.foldl Wait.body v) := by
  induction evs generalizing v with
  | nil => exact h
  | cons ev rest ih => exact ih _ (Wait.body_WF v ev hwf) (Wait.body_lockStep v ev hwf h)

theorem Wait_lockStep (v : epoll) (res : Except Failure (List EpollEvent)) (hwf : WF v)
    (h : lockStep v) : lockStep (Wait v res).1 := by
  unfold Wait
  cases res with
  | error e => exact h
  | ok events =>
    dsimp only
    split
    · exact h
    · exact Wait.foldl_lockStep events _ hwf h

theorem delete_head (e : Int × Nat) (rest : epollNetMap)
    (h : (epollNetMap.keys (e :: rest)).Nodup) : epollNetMap.delete (e :: rest) e.1 = rest := by
  unfold epollNetMap.keys at h
  rw [List.map_cons, List.nodup_cons] at h
  unfold epollNetMap.delete
  rw [List.filter_cons]
  simp only [ne_eq, not_true_eq_false, decide_False, Bool.false_eq_true, if_false]
  rw [List.filter_eq_self]
  intro a ha
  have : a.1 ≠ e.1 := by
    intro heq
    apply h.1
    rw [← heq]
    exact List.mem_map_of_mem Prod.fst ha
  simpa using this

theorem closeEach_lockStep (es : List (Int × Nat)) (v : epoll) (hwf : WF v)
    (h : lockStep v) (hes : v.conn = es) :
    (closeEach v es).1.conn = [] ∧ lockStep (closeEach v es).1 := by
  induction es generalizing v with
  | nil => exact ⟨hes, h⟩
  | cons e rest ih =>
    have he : e ∈ v.conn := by rw [hes]; exact List.mem_cons_self _ _
    have hfd := (hwf.2.1 e he).1
    have hker : (v.heap e.2).Fd ∈ v.kernel := by
      rw [hfd, h.1]
      exact List.mem_map_of_mem Prod.fst he
    have hconn : (closeConn v e.2).1.conn = rest := by
      rw [closeConn_registered v e.2 hker]
      dsimp only
      rw [hfd, hes]
      apply delete_head
      rw [← hes]
      exact hwf.1
    unfold closeEach
    exact ih _ (closeConn_WF v e.2 hwf) (closeConn_lockStep v e.2 hwf h (hwf.2.1 e he).2) hconn

theorem CloseAll_lockStep (v : epoll) (hwf : WF v) (h : lockStep v) :
    lockStep (CloseAll v).1 := by
  rw [CloseAll_state v hwf]
  have hc := closeEach_lockStep v.conn v hwf h rfl
  refine ⟨?_, fun e he => absurd he (List.not_mem_nil e)⟩
  intro k
  have := hc.2.1 k
  rw [hc.1] at this
  exact this

theorem AddOrClose_lockStep (v : epoll) (c : NetConn) (fault : Option Nat) (hwf : WF v)
    (h : lockStep v) (ha : Op.admissible v (Op.addOrClose c fault)) :
    lockStep (AddOrClose v c fault).1 := by
  obtain ⟨hopen, hfresh⟩ := ha
  by_cases hc : (AddOrClose.ctl v c fault).2 = []
  · rw [AddOrClose_registered v c fault hc]
    refine ⟨?_, ?_⟩
    · intro k
      dsimp only
      rw [keys_set, List.mem_cons, h.1 k]
    · intro e he
      dsimp only at he ⊢
      rcases List.mem_cons.mp he with he | he
      · subst he
        simpa using hopen
      · have hmem := List.mem_of_mem_filter he
        have hne : e.2 ≠ v.next := Nat.ne_of_lt (hwf.2.1 e hmem).2
        rw [if_neg hne]
        exact h.2 e hmem
  · rw [AddOrClose_failed v c fault hc]
    refine ⟨h.1, ?_⟩
    intro e he
    dsimp only at he ⊢
    intro hmem
    rcases List.mem_cons.mp hmem with hm | hm
    · apply hfresh
      have h1 := (hwf.2.1 e he).1
      have h2 := hwf.2.2 e.2 (hwf.2.1 e he).2
      rw [← hm, h2, h1]
      exact List.mem_map_of_mem Prod.fst he
    · exact h.2 e he hm

theorem Op.run_lockStep (v : epoll) (o : Op) (hwf : WF v) (h : lockStep v)
    (ha : Op.admissible v o) : lockStep (Op.run v o) := by
  cases o with
  | addOrClose c fault => exact AddOrClose_lockStep v c fault hwf h ha
  | close c => exact closeConn_lockStep v c hwf h ha
  | closeAll => exact CloseAll_lockStep v hwf h
  | wait res => exact Wait_lockStep v res hwf h

theorem runAll_lockStep (ops : List Op) (v : epoll) (hwf : WF v) (h : lockStep v)
    (ha : admissibleAll v ops) : lockStep (runAll v ops) := by
  induction ops generalizing v with
  | nil => exact h
  | cons o rest ih =>
    exact ih _ (Op.run_WF v o hwf) (Op.run_lockStep v o hwf h ha.1) ha.2

theorem newEpoll_lockStep : lockStep newEpoll :=
  ⟨fun _ => Iff.rfl, fun e he => absurd he (List.not_mem_nil e)⟩

/-- In a well-formed reactor with the lock-step property, the descriptor of every item
in the registry is on the kernel interest list. -/
theorem registered_on_interest_list (v : epoll) (hwf : WF v) (h : lockStep v)
    (e : Int × Nat) (he : e ∈ v.conn) : (v.heap e.2).Fd ∈ v.kernel := by
  rw [(hwf.2.1 e he).1, h.1]
  exact List.mem_map_of_mem Prod.fst he

/-- Calls that run one after another keep the lock-step property: when `AddOrClose`
receives newly accepted connections and `Close` items of the reactor, the reactor
between two calls has its kernel-registered descriptors equal to its registry keys and
holds no closed connection. -/
theorem lockStep_between_calls (ops : List Op) (h : admissibleAll newEpoll ops) :
    lockStep (runAll newEpoll ops) :=
  runAll_lockStep ops newEpoll newEpoll_WF newEpoll_lockStep h

/-- C3, the code at the failing input. `AddOrClose` of connection 1 with descriptor 8 on
the empty reactor issues `EPOLL_CTL_ADD` before it takes the registry lock: after the
syscall the kernel facility has descriptor 8 and the registry has no key, so the
lock-step property fails at that step. A `Wait` of the poll loop that runs in this
window and is told that descriptor 8 is readable does not find it in the registry and
takes it off the kernel facility; the locked section of `AddOrClose` then files the
item. With no call in progress any more, the registry has the key 8, the kernel facility
has no descriptor, and the connection is open: a registry key that is not registered
with the kernel facility. -/
theorem AddOrClose_races_with_Wait :
    (AddOrClose.ctl newEpoll { id := 1, fd := 8 } none).2 = [] ∧
    (AddOrClose.ctl newEpoll { id := 1, fd := 8 } none).1.kernel = [8] ∧
    (AddOrClose.ctl newEpoll { id := 1, fd := 8 } none).1.conn = [] ∧
    ¬ lockStep (AddOrClose.ctl newEpoll { id := 1, fd := 8 } none).1 ∧
    (Wait (AddOrClose.ctl newEpoll { id := 1, fd := 8 } none).1
      (Except.ok [{ Events := POLLIN, Fd := 8 }])).2.1 = [] ∧
    (Wait (AddOrClose.ctl newEpoll { id := 1, fd := 8 } none).1
      (Except.ok [{ Events := POLLIN, Fd := 8 }])).1.kernel = [] ∧
    (AddOrClose.store (Wait (AddOrClose.ctl newEpoll { id := 1, fd := 8 } none).1
      (Except.ok [{ Events := POLLIN, Fd := 8 }])).1 { id := 1, fd := 8 }).conn = [(8, 0)] ∧
    (AddOrClose.store (Wait (AddOrClose.ctl newEpoll { id := 1, fd := 8 } none).1
      (Except.ok [{ Events := POLLIN, Fd := 8 }])).1 { id := 1, fd := 8 }).kernel = [] ∧
    (AddOrClose.store (Wait (AddOrClose.ctl newEpoll { id := 1, fd := 8 } none).1
      (Except.ok [{ Events := POLLIN, Fd := 8 }])).1 { id := 1, fd := 8 }).closed = [] ∧
    ¬ lockStep (AddOrClose.store (Wait (AddOrClose.ctl newEpoll { id := 1, fd := 8 } none).1
      (Except.ok [{ Events := POLLIN, Fd := 8 }])).1 { id := 1, fd := 8 }) :=
  ⟨by decide, by decide, by decide,
   fun h => absurd ((h.1 8).mp (by decide)) (by decide),
   by decide, by decide, by decide, by decide, by decide,
   fun h => absurd ((h.1 8).mpr (by decide)) (by decide)⟩

/-! ## Server -/

theorem Switch.On_on (s : Server) (h : s.status = true) :
    { s with status := (Switch.On s.status).1 } = s := by
  cases s
  simp_all [Switch.On]

theorem Switch.Off_off (s : Server) (h : s.status = false) :
    { s with status := (Switch.Off s.status).1 } = s := by
  cases s
  simp_all [Switch.Off]

theorem Server_Up_running (check : String → String) (s : Server)
    (listen : Except Failure Nat) (create : Option Failure) (h : s.status = true) :
    Server.Up check s listen create = (s, errServAlreadyRunning) := by
  unfold Server.Up
  dsimp only
  rw [Switch.On_on s h]
  simp [Switch.On, h]

theorem Server_Down_stopped (s : Server) (h : s.status = false) :
    Server.Down s = some (s, errServAlreadyStopped) := by
  unfold Server.Down
  dsimp only
  rw [Switch.Off_off s h]
  simp [Switch.Off, h]

theorem Server_Up_status (check : String → String) (s : Server)
    (listen : Except Failure Nat) (create : Option Failure) :
    (Server.Up check s listen create).1.status = true := by
  cases listen with
  | error e =>
    unfold Server.Up Server.validate Switch.On
    dsimp only
    split
    · rfl
    · split <;> rfl
  | ok l =>
    cases create with
    | some e =>
      unfold Server.Up Server.validate Switch.On
      dsimp only
      split
      · rfl
      · split <;> rfl
    | none =>
      unfold Server.Up Server.validate Switch.On
      dsimp only
      split
      · rfl
      · split <;> rfl

theorem Server_Down_running (s : Server) (v : epoll) (l : Nat) (h : s.status = true)
    (hv : s.epoll = some v) (hl : s.listener = some l) :
    ∃ s1 err, Server.Down s = some (s1, err) ∧ s1.status = false ∧
      s1.epoll = some (CloseAll v).1 ∧ s1.shut = l :: s.shut := by
  unfold Server.Down Listener.Close
  simp only [Switch.Off, h, hv, hl, Bool.not_true, Bool.false_eq_true, if_false]
  by_cases hm : l ∈ s.shut
  · simp only [hm, if_true]
    split
    · exact ⟨_, _, rfl, rfl, rfl, rfl⟩
    · exact ⟨_, _, rfl, rfl, rfl, rfl⟩
  · simp only [hm, if_false]
    split
    · exact ⟨_, _, rfl, rfl, rfl, rfl⟩
    · exact ⟨_, _, rfl, rfl, rfl, rfl⟩

theorem Server_Up_started (check : String → String) (s : Server) (l : Nat)
    (h : s.status = false) :
    (Server.Up check s (Except.ok l) none).1.epoll = some newEpoll ∧
    (Server.Up check s (Except.ok l) none).1.listener = some l ∧
    (Server.Up check s (Except.ok l) none).2 = [] := by
  unfold Server.Up Server.validate Switch.On
  simp [h]

/-- C5: `Up` and `Down` are guarded by the run-state switch. From a stopped server, a
second `Up` right after a first one (whatever the first one met) returns the
already-running error and changes nothing: no second call of `net.Listen`, no second
reactor. After a successful `Up`, and from any running server with its listener and
reactor, the first `Down` returns and a second `Down` returns the already-stopped error
and changes nothing, reactor and listener included. `Down` on a server that was never
started returns the already-stopped error. -/
theorem Up_Down_guarded (check : String → String) (s : Server) :
    (∀ l1 c1 l2 c2, s.status = false →
      Server.Up check (Server.Up check s l1 c1).1 l2 c2 =
        ((Server.Up check s l1 c1).1, errServAlreadyRunning)) ∧
    (∀ l, s.status = false →
      ∃ s1 err, Server.Down (Server.Up check s (Except.ok l) none).1 = some (s1, err) ∧
        Server.Down s1 = some (s1, errServAlreadyStopped)) ∧
    (∀ v l, s.status = true → s.epoll = some v → s.listener = some l →
      ∃ s1 err, Server.Down s = some (s1, err) ∧
        Server.Down s1 = some (s1, errServAlreadyStopped)) ∧
    (∀ conf eof, Server.Down (New conf eof) = some (New conf eof, errServAlreadyStopped)) := by
  refine ⟨?_, ?_, ?_, ?_⟩
  · intro l1 c1 l2 c2 _
    exact Server_Up_running check _ l2 c2 (Server_Up_status check s l1 c1)
  · intro l h
    have hs := Server_Up_started check s l h
    obtain ⟨s1, err, h1, h2, _, _⟩ := Server_Down_running _ newEpoll l
      (Server_Up_status check s (Except.ok l) none) hs.1 hs.2.1
    exact ⟨s1, err, h1, Server_Down_stopped s1 h2⟩
  · intro v l h hv hl
    obtain ⟨s1, err, h1, h2, _, _⟩ := Server_Down_running s v l h hv hl
    exact ⟨s1, err, h1, Server_Down_stopped s1 h2⟩
  · intro conf eof
    exact Server_Down_stopped _ rfl

/-- C5 at a concrete server: built by `New`, started twice, the listener being 3. -/
theorem Up_Down_guarded_witness :
    (Server.Up id (Server.Up id (New zeroConfig none) (Except.ok 3) none).1
        (Except.ok 4) none).2 = errServAlreadyRunning ∧
    (Server.Up id (Server.Up id (New zeroConfig none) (Except.ok 3) none).1
        (Except.ok 4) none).1.listens = 1 :=
  have h := (Up_Down_guarded id (New zeroConfig none)).1 (Except.ok 3) none
    (Except.ok 4) none rfl
  ⟨by rw [h], by rw [h]; rfl⟩

/-- C8: after `validate` (which `Up` runs), the marker of a server built by `New` with
marker `e` is the 5-byte default `{255,244,255,253,6}` (the marker of `io/ascii.go`)
when `e` is nil or empty, and `e` itself when `e` is non-empty; `validate` is idempotent
on the marker; and the marker of the server after a first `Up` is the validated one. -/
theorem validate_eof (check : String → String) (conf : Config) :
    (Server.validate check (New conf none)).eof = some [255, 244, 255, 253, 6] ∧
    (Server.validate check (New conf (some []))).eof = some [255, 244, 255, 253, 6] ∧
    (∀ b bs, (Server.validate check (New conf (some (b :: bs)))).eof = some (b :: bs)) ∧
    (∀ e, len e = 0 → (Server.validate check (New conf e)).eof = defaultEOF) ∧
    (∀ e, len e ≠ 0 → (Server.validate check (New conf e)).eof = e) ∧
    defaultEOF = asciiEOF ∧ len defaultEOF = 5 ∧
    (∀ s : Server, (Server.validate check (Server.validate check s)).eof =
      (Server.validate check s).eof) ∧
    (∀ e listen create, (Server.Up check (New conf e) listen create).1.eof =
      (Server.validate check (New conf e)).eof) := by
  refine ⟨rfl, rfl, fun _ _ => rfl, ?_, ?_, rfl, rfl, ?_, ?_⟩
  · intro e he
    unfold Server.validate
    simp [New, he]
  · intro e he
    unfold Server.validate
    simp [New, he]
  · intro s
    rcases s with ⟨st, wg, cf, eof, li, ep, ls, cr, sh, lg⟩
    cases eof with
    | none => rfl
    | some l => cases l <;> rfl
  · intro e listen create
    have hv : ∀ s : Server, (Server.validate check s).eof =
        if len s.eof = 0 then defaultEOF else s.eof := by
      intro s
      unfold Server.validate
      dsimp only
      split <;> rfl
    rw [hv]
    cases listen with
    | error f => simp [Server.Up, New, Switch.On, hv]
    | ok l => cases create <;> simp [Server.Up, New, Switch.On, hv]

/-- C10, the code at the failing input: `Up` on a new server when `net.Listen` fails
returns the error but leaves the switch on with no listener and no reactor, and the
`Down` that follows dereferences the missing reactor; the same when the listener opens
and `newEpoll` fails. A second `Up` is then refused as already running. -/
theorem Up_failure_leaves_switch_on :
    (Server.Up id (New zeroConfig none) (Except.error (Failure.errno 98)) none).2 =
      [Failure.errno 98] ∧
    (Server.Up id (New zeroConfig none) (Except.error (Failure.errno 98)) none).1.status =
      true ∧
    (Server.Up id (New zeroConfig none) (Except.error (Failure.errno 98))
      none).1.listener = none ∧
    (Server.Up id (New zeroConfig none) (Except.error (Failure.errno 98))
      none).1.epoll.isNone = true ∧
    (Server.Down (Server.Up id (New zeroConfig none) (Except.error (Failure.errno 98))
      none).1).isNone = true ∧
    (Server.Down (Server.Up id (New zeroConfig none) (Except.ok 3)
      (some (Failure.errno 24))).1).isNone = true ∧
    (Server.Up id (Server.Up id (New zeroConfig none) (Except.error (Failure.errno 98))
      none).1 (Except.ok 3) none).2 = errServAlreadyRunning :=
  ⟨rfl, rfl, rfl, rfl, rfl, rfl, rfl⟩

/-! ## Concrete runs -/

/-- C1 at concrete inputs: connection 1 with descriptor 7 offered to the empty reactor,
once with the registration succeeding and once with it failing with `ENOMEM`. -/
theorem AddOrClose_atomic_witness :
    (getConn (AddOrClose newEpoll { id := 1, fd := 7 } none).1 7 = some 0 ∧
      (AddOrClose newEpoll { id := 1, fd := 7 } none).1.closed = []) ∧
    ((AddOrClose newEpoll { id := 1, fd := 7 } (some 12)).1.closed = [{ id := 1, fd := 7 }] ∧
      (AddOrClose newEpoll { id := 1, fd := 7 } (some 12)).1.conn = []) :=
  have h := AddOrClose_atomic newEpoll { id := 1, fd := 7 }
  ⟨⟨((h none).2 (by decide)).2.2.2.1, ((h none).2 (by decide)).2.1⟩,
   ⟨by decide, ((h (some 12)).1 (by decide)).2.2.1⟩⟩

/-- C7 at a concrete poll: descriptors 7 and 9 registered, a hangup reported on 7, then
read-readiness on 9, then an event on the unknown descriptor 5: item 0 is closed and
not handed out, item 1 is handed out. -/
theorem Wait_classifies_events_witness :
    (Wait (runAll newEpoll
        [Op.addOrClose { id := 1, fd := 7 } none, Op.addOrClose { id := 2, fd := 9 } none])
      (Except.ok [{ Events := POLLHUP, Fd := 7 }, { Events := POLLIN, Fd := 9 },
        { Events := POLLIN, Fd := 5 }])).2.1 = [1] ∧
    0 ∉ (Wait (runAll newEpoll
        [Op.addOrClose { id := 1, fd := 7 } none, Op.addOrClose { id := 2, fd := 9 } none])
      (Except.ok ([] ++ { Events := POLLHUP, Fd := 7 } :: [{ Events := POLLIN, Fd := 9 },
        { Events := POLLIN, Fd := 5 }]))).2.1 :=
  ⟨by decide,
   (((Wait_classifies_events (runAll newEpoll
        [Op.addOrClose { id := 1, fd := 7 } none, Op.addOrClose { id := 2, fd := 9 } none])
      [] [{ Events := POLLIN, Fd := 9 }, { Events := POLLIN, Fd := 5 }]
      { Events := POLLHUP, Fd := 7 }).1 0 (by decide) (by decide)).2.2 (by decide)).2.2.2.2⟩

/-- Why `AddOrClose` is to receive newly accepted connections only: offered a connection
that is already registered, it fails with `EEXIST` and closes the connection, which the
registry still holds. -/
theorem AddOrClose_twice_closes_registered :
    (AddOrClose (AddOrClose newEpoll { id := 1, fd := 7 } none).1 { id := 1, fd := 7 } none).2 =
      [Failure.errno EEXIST] ∧
    ¬ lockStep
      (AddOrClose (AddOrClose newEpoll { id := 1, fd := 7 } none).1 { id := 1, fd := 7 } none).1 :=
  ⟨by decide, fun h => h.2 (7, 0) (by decide) (by decide)⟩

end Epoll

namespace Sorts

open Go

/-! ## Bubble sort -/

theorem swap_cons_succ (x : Int) (l : List Int) (i j : Nat) :
    swap (x :: l) (i + 1) (j + 1) = x :: swap l i j := by
  unfold swap
  simp only [List.getElem?_cons_succ]
  cases l[i]? <;> cases l[j]? <;> simp

theorem swap_neighbours (p : List Int) (a b : Int) (t : List Int) :
    swap (p ++ a :: b :: t) p.length (p.length + 1) = p ++ b :: a :: t := by
  induction p with
  | nil => simp [swap]
  | cons x p ih =>
    simp only [List.cons_append, List.length_cons]
    rw [swap_cons_succ, ih]

theorem testLess_neighbours (p : List Int) (a b : Int) (t : List Int) :
    testLess (p ++ a :: b :: t) (p.length + 1) p.length = decide (b < a) := by
  unfold testLess
  have h1 : (p ++ a :: b :: t)[p.length + 1]? = some b := by
    rw [List.getElem?_append_right (Nat.le_succ _)]
    simp
  have h2 : (p ++ a :: b :: t)[p.length]? = some a := by
    rw [List.getElem?_append_right (Nat.le_refl _)]
    simp
  rw [h1, h2]

theorem testLess_out_of_range (l : List Int) (j : Nat) (h : l.length ≤ j + 1) :
    testLess l (j + 1) j = false := by
  unfold testLess
  rw [List.getElem?_eq_none h]

theorem inner_out_of_range (k j : Nat) (l : List Int) (h : l.length ≤ j + 1) :
    Bubble.inner testLess k j l = l := by
  induction k generalizing j with
  | zero => rfl
  | succ k ih =>
    unfold Bubble.inner
    rw [testLess_out_of_range l j h]
    simp only [Bool.false_eq_true, if_false]
    exact ih (j + 1) (Nat.le_succ_of_le h)

theorem pass_nil (k : Nat) : pass k [] = [] := by
  cases k <;> rfl

theorem pass_singleton (k : Nat) (a : Int) : pass k [a] = [a] := by
  cases k <;> rfl

/-- The inner loop started at position `p.length` leaves the part `p` before that
position alone and runs one pass over the rest. -/
theorem inner_eq_pass (k : Nat) (p r : List Int) :
    Bubble.inner testLess k p.length (p ++ r) = p ++ pass k r := by
  induction k generalizing p r with
  | zero => rfl
  | succ k ih =>
    match r with
    | [] =>
      rw [inner_out_of_range _ _ _ (by simp), pass_nil]
    | [a] =>
      rw [inner_out_of_range _ _ _ (by simp), pass_singleton]
    | a :: b :: t =>
      unfold Bubble.inner
      rw [testLess_neighbours, swap_neighbours]
      by_cases hba : b < a
      · simp only [hba, decide_True, if_true]
        have := ih (p ++ [b]) (a :: t)
        simp only [List.length_append, List.length_singleton, List.append_assoc,
          List.singleton_append] at this
        rw [this]
        simp [pass, hba]
      · simp only [hba, decide_False, Bool.false_eq_true, if_false]
        have := ih (p ++ [a]) (b :: t)
        simp only [List.length_append, List.length_singleton, List.append_assoc,
          List.singleton_append] at this
        rw [this]
        simp [pass, hba]

theorem pass_perm (k : Nat) (l : List Int) : (pass k l).Perm l := by
  induction k generalizing l with
  | zero => exact List.Perm.refl _
  | succ k ih =>
    match l with
    | [] => exact List.Perm.refl _
    | [a] => exact List.Perm.refl _
    | a :: b :: t =>
      unfold pass
      split
      · exact ((ih (a :: t)).cons b).trans (List.Perm.swap a b t)
      · exact (ih (b :: t)).cons a

theorem pass_append (k : Nat) (p s : List Int) (h : k + 1 ≤ p.length) :
    pass k (p ++ s) = pass k p ++ s := by
  induction k generalizing p with
  | zero => rfl
  | succ k ih =>
    match p, h with
    | a :: b :: t, h =>
      simp only [List.cons_append, pass]
      have hlen : k + 1 ≤ (a :: t).length := by
        simp only [List.length_cons] at h ⊢
        omega
      have hlen2 : k + 1 ≤ (b :: t).length := by
        simp only [List.length_cons] at h ⊢
        omega
      have h1 := ih (a :: t) hlen
      have h2 := ih (b :: t) hlen2
      simp only [List.cons_append] at h1 h2
      simp only [List.append_eq]
      rw [h1, h2]
      split <;> rfl

/-- A full pass carries a largest element to the end. -/
theorem pass_last (k : Nat) (l : List Int) (hne : l ≠ []) (h : l.length ≤ k + 1) :
    ∃ init m, pass k l = init ++ [m] ∧ ∀ x ∈ l, x ≤ m := by
  induction k generalizing l with
  | zero =>
    match l, hne, h with
    | [a], _, _ => exact ⟨[], a, rfl, by simp⟩
  | succ k ih =>
    match l, hne, h with
    | [a], _, _ => exact ⟨[], a, rfl, by simp⟩
    | a :: b :: t, _, h =>
      have hlen : (a :: t).length ≤ k + 1 := by
        simp only [List.length_cons] at h ⊢
        omega
      have hlen2 : (b :: t).length ≤ k + 1 := by
        simp only [List.length_cons] at h ⊢
        omega
      unfold pass
      by_cases hba : b < a
      · obtain ⟨init, m, hp, hm⟩ := ih (a :: t) (by simp) hlen
        refine ⟨b :: init, m, by simp [hba, hp], ?_⟩
        intro x hx
        have ha : a ≤ m := hm a (List.mem_cons_self _ _)
        rcases List.mem_cons.mp hx with hx | hx
        · rw [hx]; exact ha
        · rcases List.mem_cons.mp hx with hx | hx
          · rw [hx]; exact le_trans (le_of_lt hba) ha
          · exact hm x (List.mem_cons_of_mem _ hx)
      · obtain ⟨init, m, hp, hm⟩ := ih (b :: t) (by simp) hlen2
        refine ⟨a :: init, m, by simp [hba, hp], ?_⟩
        intro x hx
        have hb : b ≤ m := hm b (List.mem_cons_self _ _)
        rcases List.mem_cons.mp hx with hx | hx
        · rw [hx]; exact le_trans (not_lt.mp hba) hb
        · exact hm x hx

theorem outer_out_of_range (k i : Nat) (l : List Int) (h : l.length ≤ i) :
    Bubble.outer testLess k i l = l := by
  induction k generalizing i with
  | zero => rfl
  | succ k ih =>
    unfold Bubble.outer
    have h0 : l.length - i - 1 = 0 := by omega
    rw [h0]
    exact ih (i + 1) (Nat.le_succ_of_le h)

/-- The invariant of the outer loop: after `i` passes the last `i` elements are sorted
and not below any element before them. -/
theorem outer_sorts (k i : Nat) (p s : List Int) (hi : s.length = i)
    (hs : List.Sorted (fun a b => a ≤ b) s) (hps : ∀ x ∈ p, ∀ y ∈ s, x ≤ y)
    (hk : p.length ≤ k) :
    List.Sorted (fun a b => a ≤ b) (Bubble.outer testLess k i (p ++ s)) ∧
    (Bubble.outer testLess k i (p ++ s)).Perm (p ++ s) := by
  induction k generalizing i p s with
  | zero =>
    have hp : p = [] := List.length_eq_zero.mp (Nat.le_zero.mp hk)
    subst hp
    exact ⟨hs, List.Perm.refl _⟩
  | succ k ih =>
    by_cases hp : p = []
    · subst hp
      rw [outer_out_of_range _ _ _ (by simp [hi])]
      exact ⟨hs, List.Perm.refl _⟩
    · have hpos : 0 < p.length := List.length_pos.mpr hp
      unfold Bubble.outer
      have hcount : (p ++ s).length - i - 1 = p.length - 1 := by
        simp only [List.length_append, hi]
        omega
      have hinner : Bubble.inner testLess ((p ++ s).length - i - 1) 0 (p ++ s) =
          pass (p.length - 1) p ++ s := by
        rw [hcount]
        have := inner_eq_pass (p.length - 1) [] (p ++ s)
        simp only [List.length_nil, List.nil_append] at this
        rw [this]
        exact pass_append _ _ _ (by omega)
      rw [hinner]
      obtain ⟨init, m, hpass, hm⟩ := pass_last (p.length - 1) p hp (by omega)
      have hperm : (init ++ [m]).Perm p := by
        rw [← hpass]
        exact pass_perm _ _
      have hmem : m ∈ p := hperm.subset (by simp)
      have hinit : ∀ x ∈ init, x ∈ p := fun x hx => hperm.subset (by simp [hx])
      have hlen : init.length + 1 = p.length := by
        have := hperm.length_eq
        simpa using this
      rw [hpass, List.append_assoc, List.singleton_append]
      have hs2 : List.Sorted (fun a b => a ≤ b) (m :: s) :=
        List.sorted_cons.mpr ⟨fun y hy => hps m hmem y hy, hs⟩
      have hps2 : ∀ x ∈ init, ∀ y ∈ m :: s, x ≤ y := by
        intro x hx y hy
        rcases List.mem_cons.mp hy with hy | hy
        · rw [hy]; exact hm x (hinit x hx)
        · exact hps x (hinit x hx) y hy
      obtain ⟨h1, h2⟩ := ih (i + 1) init (m :: s) (by simp [hi]) hs2 hps2 (by omega)
      refine ⟨h1, h2.trans ?_⟩
      have : (init ++ m :: s) = (init ++ [m]) ++ s := by simp
      rw [this]
      exact hperm.append_right s

/-- The model of `sorts.Bubble` reproduces the four cases of `TestUnit_SortBubble`. -/
theorem Bubble_test_cases :
    Bubble (none : Slice Int) testLess = none ∧
    Bubble (some [1, 67, 23, 1, 5, 9, 5, 32, 1, 34, 68, 9, 5, 23, 0, 0, 0, 0, 0, 5, 5, 3, 2, 1])
        testLess =
      some [0, 0, 0, 0, 0, 1, 1, 1, 1, 2, 3, 5, 5, 5, 5, 5, 9, 9, 23, 23, 32, 34, 67, 68] ∧
    Bubble (some [1]) testLess = some [1] ∧
    Bubble (some [9, 4, 1, 6, 0]) testLess = some [0, 1, 4, 6, 9] := by
  set_option maxRecDepth 100000 in
  decide

/-- C9: for every slice of integers, `Bubble` called with `less(i, j) = xs[i] < xs[j]`
leaves the slice non-decreasing and a permutation of its original contents (same
length, same number of occurrences of every value), that is, its ascending-sorted
arrangement; a nil slice stays nil. -/
theorem Bubble_sorts (l : List Int) :
    Bubble (none : Slice Int) testLess = none ∧
    ∃ r, Bubble (some l) testLess = some r ∧
      List.Sorted (fun a b => a ≤ b) r ∧ r.Perm l ∧ r.length = l.length ∧
      (∀ x, r.count x = l.count x) ∧
      r = l.insertionSort (fun a b => a ≤ b) := by
  refine ⟨rfl, Bubble.outer testLess l.length 0 l, rfl, ?_⟩
  have h := outer_sorts l.length 0 l [] rfl List.sorted_nil (by simp) (Nat.le_refl _)
  rw [List.append_nil] at h
  refine ⟨h.1, h.2, h.2.length_eq, fun x => h.2.count_eq x, ?_⟩
  exact List.eq_of_perm_of_sorted (h.2.trans (List.perm_insertionSort _ l).symm) h.1
    (List.sorted_insertionSort _ l)

end Sorts
